import Mathlib

/-!
Verification development for the NanoLog compression-analysis scripts
(`pivot.py`, `transform.py`).  The Python code is shallowly embedded:
fixed-width line slicing, the `([BA]\d+-\d+)-([^ ]+)` dataset-name match,
`float()` conversion, the module-level ingestion loop, the bandwidth sweep
`runBandwidthCalculations`, and the module-level exclusion/report driver.
Python floats are idealised as exact rationals; Python runtime errors
(`AttributeError`, `ValueError`, `KeyError`) are modelled with
`Except String`.
-/

deriving instance DecidableEq for Except

namespace Pivot

/-- Python `str` digit test for the `\d` character class (ASCII only,
matching Python 2 `re` without `re.UNICODE`). -/
def isPyDigit (c : Char) : Bool := '0' ≤ c && c ≤ '9'

/-- Characters removed by Python 2 `str.strip()`:
space, tab, newline, carriage return, vertical tab, form feed. -/
def isPySpace (c : Char) : Bool :=
  c = ' ' || c = '\t' || c = '\n' || c = '\r' || c = Char.ofNat 11 || c = Char.ofNat 12

/-- Python `s.strip()` on a character list: drop leading and trailing
whitespace. -/
def pyStripList (cs : List Char) : List Char :=
  ((cs.dropWhile isPySpace).reverse.dropWhile isPySpace).reverse

/-- Python `s.strip()`. -/
def pyStrip (s : String) : String := String.mk (pyStripList s.toList)

/-- Python slice `s[a:b]` for `0 ≤ a ≤ b` (out-of-range indices clip,
never error). -/
def pySlice (s : String) (a b : Nat) : String :=
  String.mk ((s.toList.drop a).take (b - a))

/-- Numeric value of a digit list (most significant first). -/
def digitsVal (ds : List Char) : Nat :=
  ds.foldl (fun a c => 10 * a + (c.toNat - 48)) 0

/-- Core of Python 2 `float()` on an already-stripped character list:
optional sign, then digits with an optional fractional part (at least one
digit overall), then an optional exponent.  The special spellings
`inf`/`nan` are outside this model; the embedding treats them as
unparseable.  Returns `none` when the text is not a float literal. -/
def pyFloatCore (cs : List Char) : Option ℚ :=
  let (sgn, cs1) : ℚ × List Char :=
    match cs with
    | '+' :: r => (1, r)
    | '-' :: r => (-1, r)
    | _ => (1, cs)
  let intDs := cs1.takeWhile isPyDigit
  let cs2 := cs1.dropWhile isPyDigit
  let (fracDs, cs3) : List Char × List Char :=
    match cs2 with
    | '.' :: r => (r.takeWhile isPyDigit, r.dropWhile isPyDigit)
    | _ => ([], cs2)
  if intDs.isEmpty && fracDs.isEmpty then none
  else
    let mant : ℚ :=
      ((digitsVal intDs * 10 ^ fracDs.length + digitsVal fracDs : ℕ) : ℚ) /
        (10 : ℚ) ^ fracDs.length
    match cs3 with
    | [] => some (sgn * mant)
    | e :: r =>
      if e = 'e' || e = 'E' then
        let (esgn, r1) : Bool × List Char :=
          match r with
          | '+' :: r' => (true, r')
          | '-' :: r' => (false, r')
          | _ => (true, r)
        let expDs := r1.takeWhile isPyDigit
        let r2 := r1.dropWhile isPyDigit
        if expDs.isEmpty || !r2.isEmpty then none
        else if esgn then some (sgn * mant * (10 : ℚ) ^ digitsVal expDs)
        else some (sgn * mant / (10 : ℚ) ^ digitsVal expDs)
      else none

/-- Python 2 `float(s)`: strips surrounding whitespace, parses a float
literal, and raises `ValueError: could not convert string to float: s`
otherwise. -/
def pyFloat (s : String) : Except String ℚ :=
  match pyFloatCore (pyStripList s.toList) with
  | some q => .ok q
  | none => .error ("could not convert string to float: " ++ s)

/-- Value of a numeric field text, defaulting to `0` when unparseable
(only used in statements under hypotheses that parsing succeeds). -/
def floatOf (s : String) : ℚ :=
  match pyFloat s with
  | .ok q => q
  | .error _ => 0

/-- Model of `re.compile("([BA]\d+-\d+)-([^ ]+)").match(s)`: anchored at
the start, a leading `B` or `A`, a maximal nonempty digit run, `-`, a
maximal nonempty digit run (group 1 is everything so far), `-`, then a
maximal nonempty run of non-space characters (group 2).  Backtracking
never helps this pattern, so maximal-munch is exact. -/
def distFreqMatch (s : String) : Option (String × String) :=
  match s.toList with
  | [] => none
  | c :: rest =>
    if c = 'B' || c = 'A' then
      let d1 := rest.takeWhile isPyDigit
      let r1 := rest.dropWhile isPyDigit
      if d1.isEmpty then none
      else
        match r1 with
        | '-' :: r2 =>
          let d2 := r2.takeWhile isPyDigit
          let r3 := r2.dropWhile isPyDigit
          if d2.isEmpty then none
          else
            match r3 with
            | '-' :: r4 =>
              let f := r4.takeWhile (fun c' => c' ≠ ' ')
              if f.isEmpty then none
              else some (String.mk (c :: d1 ++ '-' :: d2), String.mk f)
            | _ => none
        | _ => none
    else none

/-- One parsed benchmark record: the thirteen fixed-offset fields of
`Result.__init__`, each `strip()`ped, plus the stripped raw line. -/
structure Result where
  algorithm : String
  dataset : String
  numLogs : String
  inputBytes : String
  outputBytes : String
  ratio : String
  computeTime : String
  outputTime : String
  maxTime : String
  processingBW : String
  savedBW : String
  logBW : String
  avgMsgSize : String
  line : String
deriving DecidableEq, Repr

/-- `Result.__init__`: fixed byte-offset slicing with `strip()`. -/
def Result.ofLine (line : String) : Result where
  algorithm := pyStrip (pySlice line 0 10)
  dataset := pyStrip (pySlice line 10 30)
  numLogs := pyStrip (pySlice line 30 40)
  inputBytes := pyStrip (pySlice line 40 55)
  outputBytes := pyStrip (pySlice line 55 70)
  ratio := pyStrip (pySlice line 70 80)
  computeTime := pyStrip (pySlice line 80 95)
  outputTime := pyStrip (pySlice line 95 110)
  maxTime := pyStrip (pySlice line 110 125)
  processingBW := pyStrip (pySlice line 125 145)
  savedBW := pyStrip (pySlice line 145 160)
  logBW := pyStrip (pySlice line 160 170)
  avgMsgSize := pyStrip (pySlice line 170 180)
  line := pyStrip line

/-- `Result.parseLine`: absent for lines shorter than 170 bytes, a full
record otherwise. -/
def parseLine (line : String) : Option Result :=
  if line.length < 170 then none else some (Result.ofLine line)

/-- `Result.validLine`. -/
def validLine (line : String) : Bool :=
  !(line.length < 170)

/-- Python dict read `m[k]`: value at the key, or `KeyError`. -/
def alookup {α : Type} (m : List (String × α)) (k : String) : Except String α :=
  match m.find? (fun p => p.1 = k) with
  | some p => .ok p.2
  | none => .error ("KeyError: '" ++ k ++ "'")

/-- Python dict update `m[k] = f(m[k])`: `KeyError` when the key is
absent (the code always reads before writing). -/
def aupdate {α : Type} (m : List (String × α)) (k : String) (f : α → α) :
    Except String (List (String × α)) :=
  if m.any (fun p => p.1 = k) then
    .ok (m.map (fun p => if p.1 = k then (p.1, f p.2) else p))
  else .error ("KeyError: '" ++ k ++ "'")

/-- The sweep's initial best time, `100000000000000000000`. -/
def bigInit : ℚ := 100000000000000000000

/-- State of the inner per-dataset loop of `runBandwidthCalculations`:
the running `totalOutputTime` dict and the current best algorithm. -/
structure DState where
  tot : List (String × ℚ)
  bestAlgo : String
  bestAlgoTime : ℚ
deriving DecidableEq, Repr

/-- One iteration of `for result in dataset2results[dataset]`: skip
records whose algorithm is not in `listOfAllAlgorithms` (the module
global), convert `computeTime` and `outputBytes` with `float()`,
accumulate `totalOutputTime`, and keep the strictly smallest
`outputTime` seen so far. -/
def stepRecord (listOfAllAlgorithms : List String) (bandwidthMBs : ℕ)
    (st : DState) (result : Result) : Except String DState :=
  if result.algorithm ∈ listOfAllAlgorithms then
    match pyFloat result.computeTime with
    | .error e => .error e
    | .ok computeTime =>
      match pyFloat result.outputBytes with
      | .error e => .error e
      | .ok outputBytes =>
        let ioTime := outputBytes / ((bandwidthMBs : ℚ) * 1024 * 1024)
        let outputTime := max computeTime ioTime
        match aupdate st.tot result.algorithm (fun t => t + outputTime) with
        | .error e => .error e
        | .ok tot' =>
          if st.bestAlgoTime > outputTime then .ok ⟨tot', result.algorithm, outputTime⟩
          else .ok ⟨tot', st.bestAlgo, st.bestAlgoTime⟩
  else .ok st

/-- The per-dataset loop (lines 85-99 of `pivot.py`): starts from
`bestAlgo = "dummy"`, `bestAlgoTime = 10^20`. -/
def processDataset (listOfAllAlgorithms : List String) (bandwidthMBs : ℕ)
    (tot : List (String × ℚ)) (results : List Result) : Except String DState :=
  results.foldlM (stepRecord listOfAllAlgorithms bandwidthMBs) ⟨tot, "dummy", bigInit⟩

/-- One dataset of the per-bandwidth loop: run the record loop, then
`wins[bestAlgo].append(dataset)`. -/
def pointStep (listOfAllAlgorithms : List String) (bandwidthMBs : ℕ)
    (acc : List (String × List String) × List (String × ℚ))
    (p : String × List Result) :
    Except String (List (String × List String) × List (String × ℚ)) :=
  match processDataset listOfAllAlgorithms bandwidthMBs acc.2 p.2 with
  | .error e => .error e
  | .ok st =>
    match aupdate acc.1 st.bestAlgo (fun l => l ++ [p.1]) with
    | .error e => .error e
    | .ok wins' => .ok (wins', st.tot)

/-- One bandwidth point (lines 77-101): fresh `wins` and
`totalOutputTime` dicts keyed by `listOfAlgorithms`, then the dataset
loop. -/
def processPoint (listOfAlgorithms listOfAllAlgorithms : List String)
    (dataset2results : List (String × List Result)) (bandwidthMBs : ℕ) :
    Except String (List (String × List String) × List (String × ℚ)) :=
  dataset2results.foldlM (pointStep listOfAllAlgorithms bandwidthMBs)
    (listOfAlgorithms.map (fun a => (a, ([] : List String))),
     listOfAlgorithms.map (fun a => (a, (0 : ℚ))))

/-- `wins[algorithm]` in the best-count scan; the key is always present
since the scan runs over the dict's own key list. -/
def winsGet (wins : List (String × List String)) (a : String) : List String :=
  match alookup wins a with
  | .ok l => l
  | .error _ => []

/-- The global-best scan (lines 104-112): first algorithm in
`listOfAlgorithms` order whose win count strictly exceeds the running
count, starting from `("dummy", -1)`. -/
def bestOf (listOfAlgorithms : List String) (wins : List (String × List String)) :
    String × ℤ :=
  listOfAlgorithms.foldl
    (fun acc a =>
      if ((winsGet wins a).length : ℤ) > acc.2 then (a, ((winsGet wins a).length : ℤ))
      else acc)
    ("dummy", -1)

/-- Observable outcome of one bandwidth point: the `wins` and
`totalOutputTime` dicts, the globally best algorithm, whether a
change-point block was written to the detailed file
(`lastWins != wins`), and whether the best-algorithm progress line was
printed (`lastBestAlgo != bestAlgo`). -/
structure PointOut where
  bandwidthMBs : ℕ
  wins : List (String × List String)
  tot : List (String × ℚ)
  bestAlgo : String
  wroteBlock : Bool
  printedProgress : Bool
deriving DecidableEq, Repr

/-- The bandwidth loop (lines 76-148), threading `lastWins` and
`lastBestAlgo`; a Python exception aborts the loop. -/
def sweepGo (listOfAlgorithms listOfAllAlgorithms : List String)
    (dataset2results : List (String × List Result)) :
    List ℕ → List (String × List String) → String → List PointOut × Option String
  | [], _, _ => ([], none)
  | bandwidthMBs :: rest, lastWins, lastBestAlgo =>
    match processPoint listOfAlgorithms listOfAllAlgorithms dataset2results bandwidthMBs with
    | .error e => ([], some e)
    | .ok (wins, tot) =>
      let bestAlgo := (bestOf listOfAlgorithms wins).1
      let wroteBlock := decide (lastWins ≠ wins)
      let printedProgress := decide (lastBestAlgo ≠ bestAlgo)
      let next := sweepGo listOfAlgorithms listOfAllAlgorithms dataset2results rest wins
        (if printedProgress then bestAlgo else lastBestAlgo)
      (⟨bandwidthMBs, wins, tot, bestAlgo, wroteBlock, printedProgress⟩ :: next.1, next.2)

/-- Observable outcome of one `runBandwidthCalculations` call: whether
the no-data warning was printed, which report files were opened, the
per-point outcomes, and the Python exception (if any) that aborted the
run. -/
structure RunResult where
  warned : Bool
  filesWritten : List String
  points : List PointOut
  err : Option String
deriving DecidableEq, Repr

/-- The bandwidth values of the sweep:
`range(1,500,1) + range(500,5000,50) + range(5000,100000,100)`. -/
def bandwidthList : List ℕ :=
  List.range' 1 499 1 ++ List.range' 500 90 50 ++ List.range' 5000 950 100

/-- `runBandwidthCalculations(dataset2results, listOfAlgorithms, filename)`
over a given list of bandwidth points.  An empty dict warns and returns
before opening any file; otherwise the three report files are opened and
the sweep runs.  Note the record filter inside the loop reads the module
global `listOfAllAlgorithms`, not the parameter, so both are arguments
here. -/
def runBandwidthCalculations (dataset2results : List (String × List Result))
    (listOfAlgorithms listOfAllAlgorithms : List String)
    (filename : String) (bws : List ℕ) : RunResult :=
  if dataset2results.length = 0 then
    { warned := true, filesWritten := [], points := [], err := none }
  else
    let r := sweepGo listOfAlgorithms listOfAllAlgorithms dataset2results bws [] "dummy"
    { warned := false,
      filesWritten := [filename ++ ".txt", filename ++ "-detailed.dat",
                       filename ++ "-absolute.txt"],
      points := r.1,
      err := r.2 }

/-- State built by the module-level ingestion loop (lines 187-216):
the nested `logResults` index, the `algorithms` and `frequencies` sets
(modelled as insertion-ordered duplicate-free lists; both are sorted
before use), and the `dataset2results` grouping. -/
structure IngestState where
  logResults : List (String × List (String × List (String × Result)))
  algorithms : List String
  frequencies : List String
  dataset2results : List (String × List Result)
deriving DecidableEq, Repr

/-- One iteration of `for res in allResults`.  When the dataset name
matches the distribution/frequency pattern, the loop executes
`time = res.totalTime` before touching any state, and `Result` defines
no `totalTime` attribute, so Python raises `AttributeError` there.
Otherwise the record's algorithm joins the global set and the record is
appended to its dataset group. -/
def ingestOne (st : IngestState) (res : Result) : Except String IngestState :=
  match distFreqMatch res.dataset with
  | some _ => .error "AttributeError: Result instance has no attribute 'totalTime'"
  | none =>
    .ok { st with
      algorithms :=
        if res.algorithm ∈ st.algorithms then st.algorithms
        else st.algorithms ++ [res.algorithm],
      dataset2results :=
        if st.dataset2results.any (fun p => p.1 = res.dataset) then
          st.dataset2results.map
            (fun p => if p.1 = res.dataset then (p.1, p.2 ++ [res]) else p)
        else st.dataset2results ++ [(res.dataset, [res])] }

/-- The whole ingestion loop over `allResults`. -/
def mainIngest (allResults : List Result) : Except String IngestState :=
  allResults.foldlM ingestOne ⟨[], [], [], []⟩

/-- Byte-wise lexicographic `≤` on character lists, Python 2's `str`
comparison. -/
def strLeL : List Char → List Char → Bool
  | [], _ => true
  | _ :: _, [] => false
  | a :: as, b :: bs => if a < b then true else if a = b then strLeL as bs else false

/-- Python `s1 <= s2` on byte strings. -/
def strLe (a b : String) : Bool := strLeL a.toList b.toList

/-- Insert into a `strLe`-sorted list, keeping equal elements stable. -/
def pyInsert (x : String) : List String → List String
  | [] => [x]
  | y :: ys => if strLe x y then x :: y :: ys else y :: pyInsert x ys

/-- Python `sorted(...)` on a list of strings (stable ascending sort). -/
def pySorted (l : List String) : List String := l.foldr pyInsert []

/-- The six algorithm ids removed by the module-level exclusion step
(lines 248-253), in source order. -/
def excludedSix : List String :=
  ["gzip,1+s", "gzip,6+s", "gzip,9+s", "s+gzip,1", "s+gzip,6", "s+gzip,9"]

/-- Python `list.remove(x)`: removes the first occurrence, raises
`ValueError` when absent. -/
def pyListRemove (l : List String) (x : String) : Except String (List String) :=
  if x ∈ l then .ok (l.erase x) else .error "ValueError: list.remove(x): x not in list"

/-- The six sequential `algorithms.remove(...)` calls. -/
def applyExclusions (l : List String) : Except String (List String) :=
  excludedSix.foldlM pyListRemove l

/-- Python `"Small" in k`-style substring test (used for the
`re.match(".*Small.*", k)` report filters). -/
def strContains (s sub : String) : Bool :=
  (List.range (s.toList.length + 1)).any
    (fun i => sub.toList.isPrefixOf (s.toList.drop i))

/-- Python `k.startswith(pre)`. -/
def startsWithPy (s pre : String) : Bool := pre.toList.isPrefixOf s.toList

/-- Observable outcome of the module-level analysis part (lines 187
onward): the per-distribution report files written from `logResults`,
the allow-list after exclusions, the report runs executed, and the
Python exception (if any) that aborted the program. -/
structure MainOut where
  distFiles : List String
  allowList : Option (List String)
  sweepRuns : List RunResult
  err : Option String
deriving DecidableEq, Repr

/-- Run the named report runs in order, stopping at the first aborting
exception (lines 257-293). -/
def runAll (allow : List String) (bws : List ℕ) :
    List (List (String × List Result) × String) → List RunResult
  | [] => []
  | (d2r, name) :: rest =>
    let r := runBandwidthCalculations d2r allow allow name bws
    if r.err.isSome then [r] else r :: runAll allow bws rest

/-- The module-level flow after parsing: ingestion, the per-distribution
grid reports, the exclusion step producing `listOfAllAlgorithms`, then
the ten named sweep runs over name-filtered dataset subsets. -/
def mainAnalysis (allResults : List Result) (bws : List ℕ) : MainOut :=
  match mainIngest allResults with
  | .error e => ⟨[], none, [], some e⟩
  | .ok st =>
    let distFiles := st.logResults.map (fun p => p.1 ++ ".txt")
    let algorithms := pySorted st.algorithms
    match applyExclusions algorithms with
    | .error e => ⟨distFiles, none, [], some e⟩
    | .ok algorithms' =>
      let listOfAllAlgorithms := pySorted algorithms'
      let d2r := st.dataset2results
      let runs := runAll listOfAllAlgorithms bws
        [(d2r, "all"),
         (d2r.filter (fun p => startsWithPy p.1 "Rand"), "e_rand"),
         (d2r.filter (fun p => startsWithPy p.1 "Incr"), "e_incr"),
         (d2r.filter (fun p => strContains p.1 "Small"), "s_small"),
         (d2r.filter (fun p => strContains p.1 "Reg"), "s_reg"),
         (d2r.filter (fun p => strContains p.1 "Big"), "s_big"),
         (d2r.filter (fun p => strContains p.1 "Double"), "t_double"),
         (d2r.filter (fun p => strContains p.1 "Int"), "t_int"),
         (d2r.filter (fun p => strContains p.1 "Long"), "t_long"),
         (d2r.filter (fun p => strContains p.1 "Chars"), "t_string")]
      ⟨distFiles, some listOfAllAlgorithms, runs, none⟩

/-! ### Analysis-side helpers -/

/-- The `selectionTime` of a record at bandwidth `bw` (MB/s):
`max(computeTime, outputBytes / (bw * 1024 * 1024))`. -/
def selOf (bw : ℕ) (r : Result) : ℚ :=
  max (floatOf r.computeTime) (floatOf r.outputBytes / ((bw : ℚ) * 1024 * 1024))

/-- The records of a dataset that participate in the sweep: those whose
algorithm is in the allow-list actually consulted by the loop. -/
def participating (Lall : List String) (rs : List Result) : List Result :=
  rs.filter (fun r => r.algorithm ∈ Lall)

/-- The (algorithm, selectionTime) pairs of the participating records,
in record order. -/
def entriesOf (Lall : List String) (bw : ℕ) (rs : List Result) : List (String × ℚ) :=
  (participating Lall rs).map (fun r => (r.algorithm, selOf bw r))

/-- Add `v` to the value stored at key `k` (all occurrences). -/
def bump (t : List (String × ℚ)) (k : String) (v : ℚ) : List (String × ℚ) :=
  t.map (fun p => if p.1 = k then (p.1, p.2 + v) else p)

/-- Accumulate a list of (key, value) increments into a dict. -/
def addEntries (t : List (String × ℚ)) (es : List (String × ℚ)) : List (String × ℚ) :=
  es.foldl (fun acc e => bump acc e.1 e.2) t

/-- Sum of the values of the entries with key `a`. -/
def sumKey (es : List (String × ℚ)) (a : String) : ℚ :=
  ((es.filter (fun e => e.1 = a)).map (fun e => e.2)).sum

/-- Abstract form of the per-dataset winner scan: keep the current
(best algorithm, best time), replacing it whenever a strictly smaller
time appears. -/
def bestFold : List (String × ℚ) → String × ℚ → String × ℚ
  | [], acc => acc
  | e :: es, acc => bestFold es (if acc.2 > e.2 then (e.1, e.2) else acc)

/-- Abstract form of the global-best scan: keep the current
(best algorithm, best count), replacing it whenever a strictly larger
count appears. -/
def maxFold : List (String × ℤ) → String × ℤ → String × ℤ
  | [], acc => acc
  | e :: es, acc => maxFold es (if e.2 > acc.2 then (e.1, e.2) else acc)

/-! ### Dict lemmas -/

lemma any_fst_iff {α : Type} (t : List (String × α)) (k : String) :
    (t.any (fun p => p.1 = k)) = true ↔ k ∈ t.map Prod.fst := by
  simp only [List.any_eq_true, List.mem_map, decide_eq_true_eq]

lemma aupdate_ok_of_mem {α : Type} {t : List (String × α)} {k : String}
    (f : α → α) (h : k ∈ t.map Prod.fst) :
    aupdate t k f = .ok (t.map (fun p => if p.1 = k then (p.1, f p.2) else p)) := by
  unfold aupdate
  rw [if_pos ((any_fst_iff t k).mpr h)]

lemma aupdate_err_of_not_mem {α : Type} {t : List (String × α)} {k : String}
    (f : α → α) (h : ¬ k ∈ t.map Prod.fst) :
    aupdate t k f = .error ("KeyError: '" ++ k ++ "'") := by
  unfold aupdate
  rw [if_neg (fun hc => h ((any_fst_iff t k).mp hc))]

lemma map_fst_if_update {α : Type} (t : List (String × α)) (k : String) (f : α → α) :
    (t.map (fun p => if p.1 = k then (p.1, f p.2) else p)).map Prod.fst = t.map Prod.fst := by
  induction t with
  | nil => rfl
  | cons p t ih =>
    simp only [List.map_cons, ih]
    by_cases h : p.1 = k <;> simp [h]

lemma bump_keys (t : List (String × ℚ)) (k : String) (v : ℚ) :
    (bump t k v).map Prod.fst = t.map Prod.fst := by
  unfold bump
  exact map_fst_if_update t k (fun x => x + v)

lemma alookup_cons_pos {α : Type} {x : String} {b : α} {t : List (String × α)} {a : String}
    (h : x = a) : alookup ((x, b) :: t) a = .ok b := by
  simp [alookup, List.find?_cons, h]

lemma alookup_cons_neg {α : Type} {x : String} {b : α} {t : List (String × α)} {a : String}
    (h : ¬ x = a) : alookup ((x, b) :: t) a = alookup t a := by
  simp [alookup, List.find?_cons, h]

lemma bump_cons (p : String × ℚ) (t : List (String × ℚ)) (k : String) (v : ℚ) :
    bump (p :: t) k v = (if p.1 = k then (p.1, p.2 + v) else p) :: bump t k v := rfl

lemma addEntries_keys (es : List (String × ℚ)) :
    ∀ t, (addEntries t es).map Prod.fst = t.map Prod.fst := by
  induction es with
  | nil => intro t; rfl
  | cons e es ih =>
    intro t
    show (addEntries (bump t e.1 e.2) es).map Prod.fst = _
    rw [ih, bump_keys]

lemma alookup_bump {t : List (String × ℚ)} {a : String} {v₀ : ℚ}
    (k : String) (v : ℚ) (h : alookup t a = .ok v₀) :
    alookup (bump t k v) a = .ok (if a = k then v₀ + v else v₀) := by
  induction t with
  | nil => simp [alookup, List.find?] at h
  | cons p t ih =>
    obtain ⟨x, b⟩ := p
    rw [bump_cons]
    by_cases hpk : x = k
    · rw [show (if (x, b).1 = k then ((x, b).1, (x, b).2 + v) else (x, b)) = (x, b + v) by
        simp [hpk]]
      by_cases hpa : x = a
      · have hv : v₀ = b := by
          rw [alookup_cons_pos hpa] at h
          exact (Except.ok.injEq _ _).mp h.symm
        have hak : a = k := hpa.symm.trans hpk
        rw [alookup_cons_pos hpa, if_pos hak, hv]
      · rw [alookup_cons_neg hpa] at h
        rw [alookup_cons_neg hpa, ih h]
    · rw [show (if (x, b).1 = k then ((x, b).1, (x, b).2 + v) else (x, b)) = (x, b) by
        simp [hpk]]
      by_cases hpa : x = a
      · have hv : v₀ = b := by
          rw [alookup_cons_pos hpa] at h
          exact (Except.ok.injEq _ _).mp h.symm
        have hak : ¬ a = k := fun hc => hpk (hpa.trans hc)
        rw [alookup_cons_pos hpa, if_neg hak, hv]
      · rw [alookup_cons_neg hpa] at h
        rw [alookup_cons_neg hpa, ih h]

lemma alookup_addEntries {a : String} (es : List (String × ℚ)) :
    ∀ (t : List (String × ℚ)) (v₀ : ℚ), alookup t a = .ok v₀ →
      alookup (addEntries t es) a = .ok (v₀ + sumKey es a) := by
  induction es with
  | nil => intro t v₀ h; simpa [addEntries, sumKey] using h
  | cons e es ih =>
    intro t v₀ h
    have step := alookup_bump (t := t) (a := a) e.1 e.2 h
    have := ih (bump t e.1 e.2) _ step
    rw [show addEntries t (e :: es) = addEntries (bump t e.1 e.2) es from rfl, this]
    by_cases hk : a = e.1
    · simp [sumKey, List.filter_cons, hk.symm, add_assoc]
    · have : ¬ e.1 = a := fun hc => hk hc.symm
      simp [sumKey, List.filter_cons, this, hk]

lemma alookup_map_self {α : Type} (L : List String) (g : String → α) {a : String} (h : a ∈ L) :
    alookup (L.map (fun x => (x, g x))) a = .ok (g a) := by
  induction L with
  | nil => cases h
  | cons x L ih =>
    by_cases hx : x = a
    · simp [alookup, List.find?_cons, hx]
    · rcases List.mem_cons.mp h with h' | h'
      · exact absurd h'.symm hx
      · simpa [alookup, List.find?_cons, hx] using ih h'

/-! ### bestFold and maxFold lemmas -/

lemma bestFold_cons (e : String × ℚ) (es : List (String × ℚ)) (acc : String × ℚ) :
    bestFold (e :: es) acc = bestFold es (if acc.2 > e.2 then (e.1, e.2) else acc) := rfl

lemma maxFold_cons (e : String × ℤ) (es : List (String × ℤ)) (acc : String × ℤ) :
    maxFold (e :: es) acc = maxFold es (if e.2 > acc.2 then (e.1, e.2) else acc) := rfl

lemma bestFold_stays (es : List (String × ℚ)) (acc : String × ℚ)
    (h : ∀ e ∈ es, acc.2 ≤ e.2) : bestFold es acc = acc := by
  induction es with
  | nil => rfl
  | cons e es ih =>
    rw [bestFold_cons, if_neg (not_lt.mpr (h e (by simp)))]
    exact ih (fun e' he' => h e' (by simp [he']))

lemma bestFold_snd_le (es : List (String × ℚ)) :
    ∀ acc : String × ℚ, (bestFold es acc).2 ≤ acc.2 ∧
      ∀ e ∈ es, (bestFold es acc).2 ≤ e.2 := by
  induction es with
  | nil => intro acc; exact ⟨le_refl _, by simp⟩
  | cons e es ih =>
    intro acc
    rw [bestFold_cons]
    by_cases hc : acc.2 > e.2
    · rw [if_pos hc]
      rcases ih (e.1, e.2) with ⟨h1, h2⟩
      refine ⟨le_trans h1 (le_of_lt hc), ?_⟩
      intro e' he'
      rcases List.mem_cons.mp he' with h | h
      · rw [h]; exact h1
      · exact h2 e' h
    · rw [if_neg hc]
      rcases ih acc with ⟨h1, h2⟩
      refine ⟨h1, ?_⟩
      intro e' he'
      rcases List.mem_cons.mp he' with h | h
      · rw [h]; exact le_trans h1 (not_lt.mp hc)
      · exact h2 e' h

lemma bestFold_cases (es : List (String × ℚ)) :
    ∀ acc : String × ℚ, bestFold es acc = acc ∨ ∃ e ∈ es, bestFold es acc = (e.1, e.2) := by
  induction es with
  | nil => intro acc; exact Or.inl rfl
  | cons e es ih =>
    intro acc
    rw [bestFold_cons]
    by_cases hc : acc.2 > e.2
    · rw [if_pos hc]
      rcases ih (e.1, e.2) with h | ⟨e', he', h⟩
      · exact Or.inr ⟨e, by simp, h⟩
      · exact Or.inr ⟨e', by simp [he'], h⟩
    · rw [if_neg hc]
      rcases ih acc with h | ⟨e', he', h⟩
      · exact Or.inl h
      · exact Or.inr ⟨e', by simp [he'], h⟩

lemma bestFold_first_min (es : List (String × ℚ)) {m : ℚ} {e₀ : String × ℚ} :
    ∀ acc : String × ℚ, m < acc.2 → (∀ e ∈ es, m ≤ e.2) →
      es.find? (fun e => e.2 = m) = some e₀ →
      bestFold es acc = (e₀.1, m) := by
  induction es with
  | nil => intro acc _ _ hfind; simp [List.find?] at hfind
  | cons e es ih =>
    intro acc hlt hmin hfind
    rw [bestFold_cons]
    by_cases hem : e.2 = m
    · have hde : decide (e.2 = m) = true := by simp [hem]
      simp only [List.find?_cons, hde] at hfind
      have he₀ : e₀ = e := (Option.some_injective _ hfind).symm
      have hgt : acc.2 > e.2 := by rw [hem]; exact hlt
      rw [if_pos hgt]
      have hstay : bestFold es (e.1, e.2) = (e.1, e.2) := by
        refine bestFold_stays es (e.1, e.2) (fun e' he' => ?_)
        show e.2 ≤ e'.2
        rw [hem]
        exact hmin e' (by simp [he'])
      rw [hstay, he₀, hem]
    · have hde : decide (e.2 = m) = false := by simp [hem]
      simp only [List.find?_cons, hde] at hfind
      have hme : m < e.2 := lt_of_le_of_ne (hmin e (by simp)) (fun hc => hem hc.symm)
      by_cases hc : acc.2 > e.2
      · rw [if_pos hc]
        exact ih (e.1, e.2) hme (fun e' he' => hmin e' (by simp [he'])) hfind
      · rw [if_neg hc]
        exact ih acc hlt (fun e' he' => hmin e' (by simp [he'])) hfind

lemma maxFold_stays (es : List (String × ℤ)) (acc : String × ℤ)
    (h : ∀ e ∈ es, e.2 ≤ acc.2) : maxFold es acc = acc := by
  induction es with
  | nil => rfl
  | cons e es ih =>
    rw [maxFold_cons, if_neg (not_lt.mpr (h e (by simp)))]
    exact ih (fun e' he' => h e' (by simp [he']))

lemma maxFold_first_max (es : List (String × ℤ)) {m : ℤ} {e₀ : String × ℤ} :
    ∀ acc : String × ℤ, acc.2 < m → (∀ e ∈ es, e.2 ≤ m) →
      es.find? (fun e => e.2 = m) = some e₀ →
      maxFold es acc = (e₀.1, m) := by
  induction es with
  | nil => intro acc _ _ hfind; simp [List.find?] at hfind
  | cons e es ih =>
    intro acc hlt hmax hfind
    rw [maxFold_cons]
    by_cases hem : e.2 = m
    · have hde : decide (e.2 = m) = true := by simp [hem]
      simp only [List.find?_cons, hde] at hfind
      have he₀ : e₀ = e := (Option.some_injective _ hfind).symm
      have hgt : e.2 > acc.2 := by rw [hem]; exact hlt
      rw [if_pos hgt]
      have hstay : maxFold es (e.1, e.2) = (e.1, e.2) := by
        refine maxFold_stays es (e.1, e.2) (fun e' he' => ?_)
        show e'.2 ≤ e.2
        rw [hem]
        exact hmax e' (by simp [he'])
      rw [hstay, he₀, hem]
    · have hde : decide (e.2 = m) = false := by simp [hem]
      simp only [List.find?_cons, hde] at hfind
      have hme : e.2 < m := lt_of_le_of_ne (hmax e (by simp)) hem
      by_cases hc : e.2 > acc.2
      · rw [if_pos hc]
        exact ih (e.1, e.2) hme (fun e' he' => hmax e' (by simp [he'])) hfind
      · rw [if_neg hc]
        exact ih acc hlt (fun e' he' => hmax e' (by simp [he'])) hfind

/-! ### Characterizing the per-dataset loop -/

lemma floatOf_eq {s : String} {q : ℚ} (h : pyFloat s = .ok q) : floatOf s = q := by
  unfold floatOf
  rw [h]

lemma participating_cons_pos {Lall : List String} {r : Result} (rs : List Result)
    (h : r.algorithm ∈ Lall) :
    participating Lall (r :: rs) = r :: participating Lall rs := by
  simp [participating, List.filter_cons, h]

lemma participating_cons_neg {Lall : List String} {r : Result} (rs : List Result)
    (h : ¬ r.algorithm ∈ Lall) :
    participating Lall (r :: rs) = participating Lall rs := by
  simp [participating, List.filter_cons, h]

lemma entriesOf_cons_pos {Lall : List String} {r : Result} (bw : ℕ) (rs : List Result)
    (h : r.algorithm ∈ Lall) :
    entriesOf Lall bw (r :: rs) = (r.algorithm, selOf bw r) :: entriesOf Lall bw rs := by
  unfold entriesOf
  rw [participating_cons_pos rs h, List.map_cons]

lemma entriesOf_cons_neg {Lall : List String} {r : Result} (bw : ℕ) (rs : List Result)
    (h : ¬ r.algorithm ∈ Lall) :
    entriesOf Lall bw (r :: rs) = entriesOf Lall bw rs := by
  unfold entriesOf
  rw [participating_cons_neg rs h]

lemma bestFold_cons_one (e : String × ℚ) (es : List (String × ℚ)) (acc : String × ℚ) :
    bestFold (e :: es) acc = bestFold es (bestFold [e] acc) := rfl

lemma stepRecord_not_mem {Lall : List String} {bw : ℕ} {st : DState} {r : Result}
    (h : ¬ r.algorithm ∈ Lall) : stepRecord Lall bw st r = .ok st := by
  unfold stepRecord
  rw [if_neg h]

lemma stepRecord_mem {Lall : List String} {bw : ℕ} {st : DState} {r : Result} {c o : ℚ}
    (h : r.algorithm ∈ Lall) (hc : pyFloat r.computeTime = .ok c)
    (ho : pyFloat r.outputBytes = .ok o) (hk : r.algorithm ∈ st.tot.map Prod.fst) :
    stepRecord Lall bw st r =
      .ok ⟨bump st.tot r.algorithm (selOf bw r),
           (bestFold [(r.algorithm, selOf bw r)] (st.bestAlgo, st.bestAlgoTime)).1,
           (bestFold [(r.algorithm, selOf bw r)] (st.bestAlgo, st.bestAlgoTime)).2⟩ := by
  have hsel : max c (o / ((bw : ℚ) * 1024 * 1024)) = selOf bw r := by
    rw [selOf, floatOf_eq hc, floatOf_eq ho]
  unfold stepRecord
  rw [if_pos h]
  simp only [hc, ho, aupdate_ok_of_mem _ hk, hsel]
  by_cases hcmp : st.bestAlgoTime > selOf bw r
  · rw [if_pos hcmp]
    simp only [bestFold, if_pos hcmp]
    rfl
  · rw [if_neg hcmp]
    simp only [bestFold, if_neg hcmp]
    rfl

lemma foldlM_stepRecord (Lall : List String) (bw : ℕ) :
    ∀ (rs : List Result) (st : DState),
      (∀ r ∈ rs, r.algorithm ∈ Lall →
        (∃ c, pyFloat r.computeTime = .ok c) ∧ (∃ o, pyFloat r.outputBytes = .ok o)) →
      (∀ r ∈ rs, r.algorithm ∈ Lall → r.algorithm ∈ st.tot.map Prod.fst) →
      rs.foldlM (stepRecord Lall bw) st =
        .ok ⟨addEntries st.tot (entriesOf Lall bw rs),
             (bestFold (entriesOf Lall bw rs) (st.bestAlgo, st.bestAlgoTime)).1,
             (bestFold (entriesOf Lall bw rs) (st.bestAlgo, st.bestAlgoTime)).2⟩ := by
  intro rs
  induction rs with
  | nil =>
    intro st _ _
    show Except.ok st = _
    have : entriesOf Lall bw [] = [] := rfl
    rw [this]
    rfl
  | cons r rs ih =>
    intro st hp hk
    rw [List.foldlM_cons]
    by_cases hmem : r.algorithm ∈ Lall
    · obtain ⟨⟨c, hc⟩, o, ho⟩ := hp r (by simp) hmem
      rw [stepRecord_mem hmem hc ho (hk r (by simp) hmem)]
      show rs.foldlM (stepRecord Lall bw) _ = _
      rw [ih _ (fun r' hr' => hp r' (by simp [hr'])) (fun r' hr' hm' => by
        show r'.algorithm ∈ (bump st.tot r.algorithm (selOf bw r)).map Prod.fst
        rw [bump_keys]
        exact hk r' (by simp [hr']) hm')]
      rw [entriesOf_cons_pos bw rs hmem, bestFold_cons_one]
      rfl
    · rw [stepRecord_not_mem hmem]
      show rs.foldlM (stepRecord Lall bw) _ = _
      rw [ih st (fun r' hr' => hp r' (by simp [hr'])) (fun r' hr' hm' =>
        hk r' (by simp [hr']) hm')]
      rw [entriesOf_cons_neg bw rs hmem]

/-- Bridge form of `processDataset`: when every participating record's
numeric fields parse and its algorithm is a key of the running dict, the
dataset loop succeeds; the final dict adds each participating record's
selection time to its algorithm, and the winner is the abstract fold
over the (algorithm, selectionTime) entries. -/
lemma processDataset_eq {Lall : List String} {bw : ℕ} {tot : List (String × ℚ)}
    {rs : List Result}
    (hp : ∀ r ∈ rs, r.algorithm ∈ Lall →
      (∃ c, pyFloat r.computeTime = .ok c) ∧ (∃ o, pyFloat r.outputBytes = .ok o))
    (hk : ∀ r ∈ rs, r.algorithm ∈ Lall → r.algorithm ∈ tot.map Prod.fst) :
    processDataset Lall bw tot rs =
      .ok ⟨addEntries tot (entriesOf Lall bw rs),
           (bestFold (entriesOf Lall bw rs) ("dummy", bigInit)).1,
           (bestFold (entriesOf Lall bw rs) ("dummy", bigInit)).2⟩ :=
  foldlM_stepRecord Lall bw rs ⟨tot, "dummy", bigInit⟩ hp hk

/-- The algorithm winning a dataset at bandwidth `bw`. -/
def winnerOf (Lall : List String) (bw : ℕ) (rs : List Result) : String :=
  (bestFold (entriesOf Lall bw rs) ("dummy", bigInit)).1

/-- The `wins` dict determined by a list of (dataset, winner) pairs. -/
def buildW (L : List String) (w : List (String × String)) : List (String × List String) :=
  L.map (fun a => (a, (w.filter (fun p => p.2 = a)).map Prod.fst))

lemma buildW_keys (L : List String) (w : List (String × String)) :
    (buildW L w).map Prod.fst = L := by
  unfold buildW
  induction L with
  | nil => rfl
  | cons a L ih => simp only [List.map_cons, ih]

lemma buildW_append (L : List String) (w : List (String × String)) {b : String}
    (hb : b ∈ L) (d : String) :
    aupdate (buildW L w) b (fun l => l ++ [d]) = .ok (buildW L (w ++ [(d, b)])) := by
  rw [aupdate_ok_of_mem _ (by rw [buildW_keys]; exact hb)]
  unfold buildW
  rw [List.map_map]
  refine congrArg _ (List.map_congr_left (fun a _ => ?_))
  by_cases hab : a = b
  · simp only [Function.comp_apply, if_pos hab]
    rw [List.filter_append]
    have : List.filter (fun p => p.2 = a) [(d, b)] = [(d, b)] := by
      simp [List.filter_cons, hab.symm]
    rw [this, List.map_append]
    rfl
  · simp only [Function.comp_apply, if_neg hab]
    rw [List.filter_append]
    have : List.filter (fun p => p.2 = a) [(d, b)] = [] := by
      simp [List.filter_cons]
      exact fun hc => hab hc.symm
    rw [this, List.append_nil]

lemma map_fst_map_pair {α : Type} (L : List String) (g : String → α) :
    (L.map (fun a => (a, g a))).map Prod.fst = L := by
  induction L with
  | nil => rfl
  | cons a L ih => simp only [List.map_cons, ih]

lemma mem_participating {Lall : List String} {rs : List Result} {r : Result} :
    r ∈ participating Lall rs ↔ r ∈ rs ∧ r.algorithm ∈ Lall := by
  simp [participating, List.mem_filter]

/-- When some participating entry beats the `10^20` initial time, the
dataset's winner is the algorithm of a participating record. -/
lemma winnerOf_mem {Lall : List String} {bw : ℕ} {rs : List Result}
    (h : ∃ e ∈ entriesOf Lall bw rs, e.2 < bigInit) :
    ∃ r ∈ rs, r.algorithm ∈ Lall ∧ winnerOf Lall bw rs = r.algorithm := by
  obtain ⟨e, he, hlt⟩ := h
  rcases bestFold_cases (entriesOf Lall bw rs) ("dummy", bigInit) with hcase | ⟨e', he', hcase⟩
  · exfalso
    have h2 := (bestFold_snd_le (entriesOf Lall bw rs) ("dummy", bigInit)).2 e he
    rw [hcase] at h2
    exact absurd h2 (not_le.mpr hlt)
  · obtain ⟨r, hr, hre⟩ := List.mem_map.mp he'
    refine ⟨r, (mem_participating.mp hr).1, (mem_participating.mp hr).2, ?_⟩
    unfold winnerOf
    rw [hcase, ← hre]

/-- All (algorithm, selectionTime) entries of a dataset map at one
bandwidth point, in dataset order. -/
def pointEntries (Lall : List String) (bw : ℕ)
    (d2r : List (String × List Result)) : List (String × ℚ) :=
  (d2r.map (fun p => entriesOf Lall bw p.2)).flatten

/-- The (dataset, winner) pairs of one bandwidth point. -/
def pointWinners (Lall : List String) (bw : ℕ)
    (d2r : List (String × List Result)) : List (String × String) :=
  d2r.map (fun p => (p.1, winnerOf Lall bw p.2))

lemma addEntries_append (t : List (String × ℚ)) (es₁ es₂ : List (String × ℚ)) :
    addEntries t (es₁ ++ es₂) = addEntries (addEntries t es₁) es₂ := by
  unfold addEntries
  exact List.foldl_append _ _ es₁ es₂

lemma except_bind_ok {α β : Type} (a : α) (f : α → Except String β) :
    (Except.ok (ε := String) a >>= f) = f a := rfl

lemma pointStep_ok {Lall : List String} {bw : ℕ}
    {wins wins' : List (String × List String)} {tot : List (String × ℚ)}
    {p : String × List Result} {st : DState}
    (hpd : processDataset Lall bw tot p.2 = .ok st)
    (hup : aupdate wins st.bestAlgo (fun l => l ++ [p.1]) = .ok wins') :
    pointStep Lall bw (wins, tot) p = .ok (wins', st.tot) := by
  unfold pointStep
  simp only [hpd, hup]

lemma foldlM_pointStep (L Lall : List String) (bw : ℕ) :
    ∀ (d2r : List (String × List Result)) (w : List (String × String))
      (tot : List (String × ℚ)),
      (∀ p ∈ d2r, ∀ r ∈ p.2, r.algorithm ∈ Lall →
        (∃ c, pyFloat r.computeTime = .ok c) ∧ (∃ o, pyFloat r.outputBytes = .ok o)) →
      (∀ p ∈ d2r, ∀ r ∈ p.2, r.algorithm ∈ Lall → r.algorithm ∈ L) →
      (∀ p ∈ d2r, ∃ e ∈ entriesOf Lall bw p.2, e.2 < bigInit) →
      tot.map Prod.fst = L →
      d2r.foldlM (pointStep Lall bw) (buildW L w, tot) =
        .ok (buildW L (w ++ pointWinners Lall bw d2r),
             addEntries tot (pointEntries Lall bw d2r)) := by
  intro d2r
  induction d2r with
  | nil =>
    intro w tot _ _ _ _
    show Except.ok _ = _
    rw [show pointWinners Lall bw [] = [] from rfl, List.append_nil]
    rfl
  | cons p d2r ih =>
    intro w tot hp hL hgood htot
    rw [List.foldlM_cons]
    have hpd := @processDataset_eq Lall bw tot p.2
      (hp p (by simp))
      (fun r hr hm => by rw [htot]; exact hL p (by simp) r hr hm)
    have hWmem : winnerOf Lall bw p.2 ∈ L := by
      obtain ⟨r, hr, hra, hwr⟩ := winnerOf_mem (hgood p (by simp))
      rw [hwr]
      exact hL p (by simp) r hr hra
    have hup := buildW_append L w hWmem p.1
    rw [pointStep_ok hpd hup, except_bind_ok]
    have ih' := ih (w ++ [(p.1, winnerOf Lall bw p.2)]) (addEntries tot (entriesOf Lall bw p.2))
      (fun p' hp' => hp p' (by simp [hp']))
      (fun p' hp' => hL p' (by simp [hp']))
      (fun p' hp' => hgood p' (by simp [hp']))
      (by rw [addEntries_keys, htot])
    rw [ih']
    rw [show pointWinners Lall bw (p :: d2r) =
      (p.1, winnerOf Lall bw p.2) :: pointWinners Lall bw d2r from rfl]
    rw [show pointEntries Lall bw (p :: d2r) =
      entriesOf Lall bw p.2 ++ pointEntries Lall bw d2r from rfl]
    rw [addEntries_append, List.append_assoc]
    rfl

/-- Full characterization of one successful bandwidth point: the `wins`
dict is exactly the per-dataset-winner partition, and `totalOutputTime`
accumulates all participating entries, starting from zero. -/
lemma processPoint_eq {L Lall : List String} {bw : ℕ}
    {d2r : List (String × List Result)}
    (hp : ∀ p ∈ d2r, ∀ r ∈ p.2, r.algorithm ∈ Lall →
      (∃ c, pyFloat r.computeTime = .ok c) ∧ (∃ o, pyFloat r.outputBytes = .ok o))
    (hL : ∀ p ∈ d2r, ∀ r ∈ p.2, r.algorithm ∈ Lall → r.algorithm ∈ L)
    (hgood : ∀ p ∈ d2r, ∃ e ∈ entriesOf Lall bw p.2, e.2 < bigInit) :
    processPoint L Lall d2r bw =
      .ok (buildW L (pointWinners Lall bw d2r),
           addEntries (L.map (fun a => (a, (0 : ℚ)))) (pointEntries Lall bw d2r)) := by
  have h0 : buildW L ([] : List (String × String)) =
      L.map (fun a => (a, ([] : List String))) := rfl
  have := foldlM_pointStep L Lall bw d2r [] (L.map (fun a => (a, (0 : ℚ))))
    hp hL hgood (map_fst_map_pair L _)
  unfold processPoint
  rw [← h0, this, List.nil_append]

/-- Strengthened form of `winnerOf_mem`: the winner comes from a
participating record of minimal selection time. -/
lemma winnerOf_min {Lall : List String} {bw : ℕ} {rs : List Result}
    (h : ∃ e ∈ entriesOf Lall bw rs, e.2 < bigInit) :
    ∃ r ∈ rs, r.algorithm ∈ Lall ∧ winnerOf Lall bw rs = r.algorithm ∧
      ∀ r' ∈ rs, r'.algorithm ∈ Lall → selOf bw r ≤ selOf bw r' := by
  obtain ⟨e, he, hlt⟩ := h
  rcases bestFold_cases (entriesOf Lall bw rs) ("dummy", bigInit) with hcase | ⟨e', he', hcase⟩
  · exfalso
    have h2 := (bestFold_snd_le (entriesOf Lall bw rs) ("dummy", bigInit)).2 e he
    rw [hcase] at h2
    exact absurd h2 (not_le.mpr hlt)
  · obtain ⟨r, hr, hre⟩ := List.mem_map.mp he'
    refine ⟨r, (mem_participating.mp hr).1, (mem_participating.mp hr).2, ?_, ?_⟩
    · unfold winnerOf
      rw [hcase, ← hre]
    · intro r' hr' hm'
      have hmem' : (r'.algorithm, selOf bw r') ∈ entriesOf Lall bw rs :=
        List.mem_map.mpr ⟨r', mem_participating.mpr ⟨hr', hm'⟩, rfl⟩
      have h2 := (bestFold_snd_le (entriesOf Lall bw rs) ("dummy", bigInit)).2 _ hmem'
      rw [hcase] at h2
      have : selOf bw r = e'.2 := by rw [← hre]
      rw [this]
      exact h2

lemma alookup_buildW {L : List String} (w : List (String × String)) {a : String}
    (ha : a ∈ L) :
    alookup (buildW L w) a = .ok ((w.filter (fun p => p.2 = a)).map Prod.fst) :=
  alookup_map_self L _ ha

lemma sumKey_cons (e : String × ℚ) (es : List (String × ℚ)) (a : String) :
    sumKey (e :: es) a = (if e.1 = a then e.2 else 0) + sumKey es a := by
  unfold sumKey
  rw [List.filter_cons]
  by_cases h : e.1 = a
  · simp [h]
  · simp [h]

lemma sumKey_append (es₁ es₂ : List (String × ℚ)) (a : String) :
    sumKey (es₁ ++ es₂) a = sumKey es₁ a + sumKey es₂ a := by
  unfold sumKey
  rw [List.filter_append, List.map_append, List.sum_append]

/-- Per dataset, the entries with key `a` sum to the selection times of
the records whose algorithm text is exactly `a` (for `a` in the
allow-list actually used by the loop). -/
lemma sumKey_entriesOf {Lall : List String} {bw : ℕ} {a : String} (ha : a ∈ Lall) :
    ∀ rs : List Result,
      sumKey (entriesOf Lall bw rs) a =
        ((rs.filter (fun r => r.algorithm = a)).map (fun r => selOf bw r)).sum := by
  intro rs
  induction rs with
  | nil => rfl
  | cons r rs ih =>
    by_cases hm : r.algorithm ∈ Lall
    · rw [entriesOf_cons_pos bw rs hm, sumKey_cons, List.filter_cons]
      by_cases hra : r.algorithm = a
      · simp [hra, ih]
      · simp [hra, ih]
    · have hra : ¬ r.algorithm = a := fun hc => hm (hc ▸ ha)
      rw [entriesOf_cons_neg bw rs hm, List.filter_cons]
      simp [hra, ih]

lemma sumKey_pointEntries {Lall : List String} {bw : ℕ} {a : String} :
    ∀ d2r : List (String × List Result),
      sumKey (pointEntries Lall bw d2r) a =
        (d2r.map (fun p => sumKey (entriesOf Lall bw p.2) a)).sum := by
  intro d2r
  induction d2r with
  | nil => rfl
  | cons p d2r ih =>
    rw [show pointEntries Lall bw (p :: d2r) =
      entriesOf Lall bw p.2 ++ pointEntries Lall bw d2r from rfl]
    rw [sumKey_append, ih, List.map_cons, List.sum_cons]

lemma except_bind_congr {α β : Type} {x : Except String α} {f g : α → Except String β}
    (h : ∀ a, x = .ok a → f a = g a) : (x >>= f) = (x >>= g) := by
  cases x with
  | error e => rfl
  | ok a => exact h a rfl

/-- Dropping the records whose algorithm is outside the loop's
allow-list does not change the dataset loop at all: participation is
exactly allow-list membership. -/
lemma processDataset_filter (Lall : List String) (bw : ℕ) :
    ∀ (rs : List Result) (st : DState),
      rs.foldlM (stepRecord Lall bw) st =
        (rs.filter (fun r => r.algorithm ∈ Lall)).foldlM (stepRecord Lall bw) st := by
  intro rs
  induction rs with
  | nil => intro st; rfl
  | cons r rs ih =>
    intro st
    rw [List.filter_cons]
    by_cases hm : r.algorithm ∈ Lall
    · rw [if_pos (by simp [hm] : decide (r.algorithm ∈ Lall) = true)]
      rw [List.foldlM_cons, List.foldlM_cons]
      refine except_bind_congr (fun st' _ => ih st')
    · rw [if_neg (by simp [hm] : ¬ decide (r.algorithm ∈ Lall) = true)]
      rw [List.foldlM_cons, stepRecord_not_mem hm, except_bind_ok]
      exact ih st

/-- Point-level version of `processDataset_filter`. -/
lemma processPoint_filter (L Lall : List String) (bw : ℕ)
    (d2r : List (String × List Result)) :
    processPoint L Lall d2r bw =
      processPoint L Lall (d2r.map (fun p => (p.1, p.2.filter (fun r => r.algorithm ∈ Lall)))) bw := by
  unfold processPoint
  generalize (L.map (fun a => (a, ([] : List String))), L.map (fun a => (a, (0 : ℚ)))) = acc
  induction d2r generalizing acc with
  | nil => rfl
  | cons p d2r ih =>
    rw [List.map_cons, List.foldlM_cons, List.foldlM_cons]
    have hstep : pointStep Lall bw acc (p.1, p.2.filter (fun r => r.algorithm ∈ Lall)) =
        pointStep Lall bw acc p := by
      unfold pointStep
      show (match processDataset Lall bw acc.2 (p.2.filter fun r => r.algorithm ∈ Lall) with
        | .error e => _ | .ok st => _) = _
      rw [show processDataset Lall bw acc.2 (p.2.filter fun r => r.algorithm ∈ Lall) =
        processDataset Lall bw acc.2 p.2 from (processDataset_filter Lall bw p.2 _).symm]
    rw [hstep]
    exact except_bind_congr (fun acc' _ => ih acc')

lemma bestOf_eq_maxFold (L : List String) (wins : List (String × List String)) :
    bestOf L wins =
      maxFold (L.map (fun a => (a, ((winsGet wins a).length : ℤ)))) ("dummy", -1) := by
  show L.foldl _ ("dummy", -1) = _
  generalize ("dummy", (-1 : ℤ)) = acc
  induction L generalizing acc with
  | nil => rfl
  | cons a L ih => exact ih _

set_option maxRecDepth 100000

/-! ### Claim C1 -/

/-- Record parsed from a line with dataset field `A12-34-weekly` (matches
the distribution/frequency pattern). -/
def c1recA : Result :=
  ⟨"nlog", "A12-34-weekly", "10", "100", "50", "2.0", "1.5", "0.5", "1.5",
   "66.6", "33.3", "6.6", "10", "raw line A"⟩

/-- Record parsed from a line with dataset field `weekly-only` (does not
match the pattern). -/
def c1recW : Result :=
  ⟨"nlog", "weekly-only", "10", "100", "50", "2.0", "1.5", "0.5", "1.5",
   "66.6", "33.3", "6.6", "10", "raw line W"⟩

/-- C1.  The dataset name `A12-34-weekly` does match the pattern with
distribution `A12-34` and frequency `weekly`, and a non-matching record
is appended to its plain dataset group with no distribution entry; but a
matching record is NOT inserted into the distribution/frequency index:
the ingestion loop evaluates `res.totalTime` first, `Result` has no such
attribute, and ingestion aborts with `AttributeError`, leaving
`logResults` empty.  This refutes the claim's insertion behaviour on the
code as written (the insertion code at lines 203-210 is dead). -/
theorem claim1_ingest_totalTime_crash :
    distFreqMatch "A12-34-weekly" = some ("A12-34", "weekly") ∧
    mainIngest [c1recA] =
      .error "AttributeError: Result instance has no attribute 'totalTime'" ∧
    mainIngest [c1recW] =
      .ok ⟨[], ["nlog"], [], [("weekly-only", [c1recW])]⟩ := by
  refine ⟨by decide, by decide, by decide⟩

/-! ### Claim C4 -/

/-- C4.  `parseLine` returns absent exactly when the line is shorter
than 170 characters, never as an error; on any other line it returns the
record whose thirteen fields are the whitespace-trimmed substrings at
the fixed byte offsets, kept as text. -/
theorem claim4_parseLine (line : String) :
    (parseLine line = none ↔ line.length < 170) ∧
    (∀ r, parseLine line = some r →
      r.algorithm = pyStrip (pySlice line 0 10) ∧
      r.dataset = pyStrip (pySlice line 10 30) ∧
      r.numLogs = pyStrip (pySlice line 30 40) ∧
      r.inputBytes = pyStrip (pySlice line 40 55) ∧
      r.outputBytes = pyStrip (pySlice line 55 70) ∧
      r.ratio = pyStrip (pySlice line 70 80) ∧
      r.computeTime = pyStrip (pySlice line 80 95) ∧
      r.outputTime = pyStrip (pySlice line 95 110) ∧
      r.maxTime = pyStrip (pySlice line 110 125) ∧
      r.processingBW = pyStrip (pySlice line 125 145) ∧
      r.savedBW = pyStrip (pySlice line 145 160) ∧
      r.logBW = pyStrip (pySlice line 160 170) ∧
      r.avgMsgSize = pyStrip (pySlice line 170 180)) := by
  constructor
  · unfold parseLine
    by_cases h : line.length < 170
    · simp [h]
    · simp [h]
  · intro r hr
    unfold parseLine at hr
    by_cases h : line.length < 170
    · rw [if_pos h] at hr
      cases hr
    · rw [if_neg h] at hr
      have := Option.some_injective _ hr
      subst this
      exact ⟨rfl, rfl, rfl, rfl, rfl, rfl, rfl, rfl, rfl, rfl, rfl, rfl, rfl⟩

/-- A well-formed 180-character data line. -/
def c4line : String :=
  "lz4       Rand-Small-1        1000      123456         65536          1.88      0.125          0.5            0.5            400.5               93.1           2.0       12.3      "

theorem claim4_parseLine_witness :
    parseLine c4line = some (Result.ofLine c4line) ∧
    (Result.ofLine c4line).computeTime = pyStrip (pySlice c4line 80 95) ∧
    (Result.ofLine c4line).computeTime = "0.125" ∧
    parseLine "too short" = none := by
  refine ⟨by decide, ?_, by decide, (claim4_parseLine "too short").1.mpr (by decide)⟩
  exact (((((((claim4_parseLine c4line).2 _ (by decide)).2).2).2).2).2).2.1

/-! ### Claim C3 -/

/-- C3.  At any bandwidth point, under the program's calling convention
(the allow-list parameter is the module global `listOfAllAlgorithms`,
`hLL`), and whenever all participating numeric fields parse and each
dataset has a participating record beating the `10^20` initial time:
exactly the records whose algorithm is in the allow-list participate
(filtering the others away changes nothing); each algorithm's cumulative
time is the sum over all datasets of the selection times
`max(computeTime, outputBytes/(bw*1024*1024))` of its records; and each
dataset's winner is a participating record of minimal selection time. -/
theorem claim3_point_semantics (L Lall : List String) (hLL : L = Lall)
    (d2r : List (String × List Result)) (bw : ℕ)
    (hp : ∀ p ∈ d2r, ∀ r ∈ p.2, r.algorithm ∈ Lall →
      (∃ c, pyFloat r.computeTime = .ok c) ∧ (∃ o, pyFloat r.outputBytes = .ok o))
    (hgood : ∀ p ∈ d2r, ∃ r ∈ p.2, r.algorithm ∈ Lall ∧ selOf bw r < bigInit) :
    ∃ wins tot,
      processPoint L Lall d2r bw = .ok (wins, tot) ∧
      processPoint L Lall d2r bw =
        processPoint L Lall
          (d2r.map (fun p => (p.1, p.2.filter (fun r => r.algorithm ∈ L)))) bw ∧
      (∀ a ∈ L, alookup tot a =
        .ok ((d2r.map (fun p =>
          ((p.2.filter (fun r => r.algorithm = a)).map (fun r => selOf bw r)).sum)).sum)) ∧
      (∀ p ∈ d2r, ∃ r ∈ p.2, r.algorithm ∈ L ∧
        (∃ l, alookup wins r.algorithm = .ok l ∧ p.1 ∈ l) ∧
        ∀ r' ∈ p.2, r'.algorithm ∈ L → selOf bw r ≤ selOf bw r') := by
  subst hLL
  have hgood' : ∀ p ∈ d2r, ∃ e ∈ entriesOf L bw p.2, e.2 < bigInit := by
    intro p hpd
    obtain ⟨r, hr, hm, hlt⟩ := hgood p hpd
    exact ⟨(r.algorithm, selOf bw r),
      List.mem_map.mpr ⟨r, mem_participating.mpr ⟨hr, hm⟩, rfl⟩, hlt⟩
  have hL : ∀ p ∈ d2r, ∀ r ∈ p.2, r.algorithm ∈ L → r.algorithm ∈ L :=
    fun _ _ _ _ h => h
  have hmain := processPoint_eq hp hL hgood'
  refine ⟨_, _, hmain, processPoint_filter L L bw d2r, ?_, ?_⟩
  · intro a ha
    have h0 : alookup (L.map (fun x => (x, (0 : ℚ)))) a = .ok 0 := alookup_map_self L _ ha
    rw [alookup_addEntries (pointEntries L bw d2r) _ 0 h0, zero_add,
      sumKey_pointEntries]
    refine congrArg _ (congrArg _ (List.map_congr_left (fun p _ => ?_)))
    exact sumKey_entriesOf ha p.2
  · intro p hpd
    obtain ⟨r, hr, hm, hwr, hmin⟩ := winnerOf_min (hgood' p hpd)
    refine ⟨r, hr, hm, ⟨_, alookup_buildW (pointWinners L bw d2r) hm, ?_⟩, hmin⟩
    refine List.mem_map.mpr ⟨(p.1, winnerOf L bw p.2), ?_, rfl⟩
    refine List.mem_filter.mpr ⟨List.mem_map.mpr ⟨p, hpd, rfl⟩, ?_⟩
    simp [hwr]

/-- Dataset-`d` record of algorithm `a` used in concrete sweep inputs. -/
def c3ra : Result :=
  ⟨"a", "d", "10", "100", "0", "2.0", "2.0", "0.5", "2.0", "", "", "", "", "line a"⟩

/-- Dataset-`d` record of algorithm `b` used in concrete sweep inputs. -/
def c3rb : Result :=
  ⟨"b", "d", "10", "100", "0", "2.0", "1.0", "0.5", "1.0", "", "", "", "", "line b"⟩

theorem claim3_point_semantics_witness :
    (pyFloat c3ra.computeTime = .ok 2 ∧ selOf 1 c3rb < bigInit) ∧
    (∃ wins tot,
      processPoint ["a", "b"] ["a", "b"] [("d", [c3ra, c3rb])] 1 = .ok (wins, tot) ∧
      processPoint ["a", "b"] ["a", "b"] [("d", [c3ra, c3rb])] 1 =
        processPoint ["a", "b"] ["a", "b"]
          ([("d", [c3ra, c3rb])].map
            (fun p => (p.1, p.2.filter (fun r => r.algorithm ∈ ["a", "b"])))) 1 ∧
      (∀ a ∈ ["a", "b"], alookup tot a =
        .ok (([("d", [c3ra, c3rb])].map (fun p =>
          ((p.2.filter (fun r => r.algorithm = a)).map (fun r => selOf 1 r)).sum)).sum)) ∧
      (∀ p ∈ [("d", [c3ra, c3rb])], ∃ r ∈ p.2, r.algorithm ∈ ["a", "b"] ∧
        (∃ l, alookup wins r.algorithm = .ok l ∧ p.1 ∈ l) ∧
        ∀ r' ∈ p.2, r'.algorithm ∈ ["a", "b"] → selOf 1 r ≤ selOf 1 r')) := by
  refine ⟨⟨by with_unfolding_all decide, by with_unfolding_all decide⟩, ?_⟩
  refine claim3_point_semantics ["a", "b"] ["a", "b"] rfl [("d", [c3ra, c3rb])] 1 ?_ ?_
  · intro p hpd r hr hm
    have hp' : p = ("d", [c3ra, c3rb]) := by simpa using hpd
    subst hp'
    rcases List.mem_cons.mp hr with hr' | hr'
    · subst hr'
      exact ⟨⟨2, by with_unfolding_all decide⟩, ⟨0, by with_unfolding_all decide⟩⟩
    · rcases List.mem_cons.mp hr' with hr'' | hr''
      · subst hr''
        exact ⟨⟨1, by with_unfolding_all decide⟩, ⟨0, by with_unfolding_all decide⟩⟩
      · cases hr''
  · intro p hpd
    have hp' : p = ("d", [c3ra, c3rb]) := by simpa using hpd
    subst hp'
    exact ⟨c3ra, by simp, by decide, by with_unfolding_all decide⟩

/-! ### Claim C2 -/

lemma participating_reverse (Lall : List String) (rs : List Result) :
    participating Lall.reverse rs = participating Lall rs := by
  unfold participating
  refine List.filter_congr (fun r _ => ?_)
  simp [List.mem_reverse]

lemma entriesOf_reverse (Lall : List String) (bw : ℕ) (rs : List Result) :
    entriesOf Lall.reverse bw rs = entriesOf Lall bw rs := by
  unfold entriesOf
  rw [participating_reverse]

/-- Tied record of algorithm `a` (selection time 2 at any bandwidth). -/
def c2ra : Result :=
  ⟨"a", "d", "10", "100", "0", "2.0", "2.0", "0.5", "2.0", "", "", "", "", "line a"⟩

/-- Tied record of algorithm `b` (selection time 2 at any bandwidth). -/
def c2rb : Result :=
  ⟨"b", "d", "10", "100", "0", "2.0", "2.0", "0.5", "2.0", "", "", "", "", "line b"⟩

/-- C2 counterexample.  Records of algorithms `a` and `b` are tied at
the minimal selection time.  With allow-list `["a", "b"]` the winner of
dataset `d` is `a`; with the allow-list reversed to `["b", "a"]` the
winner is STILL `a` (`b`'s win list stays empty), because the tie is
broken by record order within the dataset group, not by allow-list
iteration order.  This refutes "reversing the allow-list order makes
the other tied record win". -/
theorem claim2_counterexample :
    selOf 1 c2ra = selOf 1 c2rb ∧
    processPoint ["a", "b"] ["a", "b"] [("d", [c2ra, c2rb])] 1 =
      .ok ([("a", ["d"]), ("b", [])], [("a", 2), ("b", 2)]) ∧
    processPoint ["b", "a"] ["b", "a"] [("d", [c2ra, c2rb])] 1 =
      .ok ([("b", []), ("a", ["d"])], [("b", 2), ("a", 2)]) := by
  refine ⟨by with_unfolding_all decide, by with_unfolding_all decide,
    by with_unfolding_all decide⟩

/-- C2 amended.  On a selection-time tie the winner of a dataset is the
algorithm of the FIRST record in the dataset group's stored (file
arrival) order attaining the minimal selection time (`e₀` below, the
first entry whose time is the minimum `m`), and reversing the allow-list
leaves every dataset's winner unchanged: allow-list order plays no role
in per-dataset tie-breaking. -/
theorem claim2_tie_first_record (L Lall : List String) (hLL : L = Lall)
    (d2r : List (String × List Result)) (bw : ℕ)
    (hp : ∀ p ∈ d2r, ∀ r ∈ p.2, r.algorithm ∈ Lall →
      (∃ c, pyFloat r.computeTime = .ok c) ∧ (∃ o, pyFloat r.outputBytes = .ok o))
    (hgood : ∀ p ∈ d2r, ∃ r ∈ p.2, r.algorithm ∈ Lall ∧ selOf bw r < bigInit)
    (d : String) (rs : List Result) (hmem : (d, rs) ∈ d2r)
    (m : ℚ) (e₀ : String × ℚ) (hmlt : m < bigInit)
    (hmin : ∀ e ∈ entriesOf Lall bw rs, m ≤ e.2)
    (hfind : (entriesOf Lall bw rs).find? (fun e => e.2 = m) = some e₀) :
    (∃ wins tot, processPoint L Lall d2r bw = .ok (wins, tot) ∧
      ∃ l, alookup wins e₀.1 = .ok l ∧ d ∈ l) ∧
    (∃ wins' tot', processPoint L.reverse Lall.reverse d2r bw = .ok (wins', tot') ∧
      ∃ l, alookup wins' e₀.1 = .ok l ∧ d ∈ l) := by
  subst hLL
  have hgood' : ∀ p ∈ d2r, ∃ e ∈ entriesOf L bw p.2, e.2 < bigInit := by
    intro p hpd
    obtain ⟨r, hr, hm, hlt⟩ := hgood p hpd
    exact ⟨(r.algorithm, selOf bw r),
      List.mem_map.mpr ⟨r, mem_participating.mpr ⟨hr, hm⟩, rfl⟩, hlt⟩
  have hw : winnerOf L bw rs = e₀.1 := by
    unfold winnerOf
    rw [bestFold_first_min (entriesOf L bw rs) ("dummy", bigInit) hmlt hmin hfind]
  have he₀mem : e₀ ∈ entriesOf L bw rs := List.mem_of_find?_eq_some hfind
  have he₀L : e₀.1 ∈ L := by
    obtain ⟨r, hr, hre⟩ := List.mem_map.mp he₀mem
    rw [← hre]
    exact (mem_participating.mp hr).2
  constructor
  · have hmain := processPoint_eq hp (fun _ _ _ _ h => h) hgood'
    refine ⟨_, _, hmain, _, alookup_buildW (pointWinners L bw d2r) he₀L, ?_⟩
    refine List.mem_map.mpr ⟨(d, winnerOf L bw rs), ?_, rfl⟩
    refine List.mem_filter.mpr ⟨List.mem_map.mpr ⟨(d, rs), hmem, rfl⟩, ?_⟩
    simp [hw]
  · have hp' : ∀ p ∈ d2r, ∀ r ∈ p.2, r.algorithm ∈ L.reverse →
        (∃ c, pyFloat r.computeTime = .ok c) ∧ (∃ o, pyFloat r.outputBytes = .ok o) := by
      intro p hpd r hr hm
      exact hp p hpd r hr (List.mem_reverse.mp hm)
    have hgood'' : ∀ p ∈ d2r, ∃ e ∈ entriesOf L.reverse bw p.2, e.2 < bigInit := by
      intro p hpd
      rw [entriesOf_reverse]
      exact hgood' p hpd
    have hmain := processPoint_eq hp' (fun _ _ _ _ h => h) hgood''
    have hwrev : winnerOf L.reverse bw rs = e₀.1 := by
      unfold winnerOf
      rw [entriesOf_reverse]
      rw [bestFold_first_min (entriesOf L bw rs) ("dummy", bigInit) hmlt hmin hfind]
    refine ⟨_, _, hmain, _,
      alookup_buildW (pointWinners L.reverse bw d2r) (List.mem_reverse.mpr he₀L), ?_⟩
    refine List.mem_map.mpr ⟨(d, winnerOf L.reverse bw rs), ?_, rfl⟩
    refine List.mem_filter.mpr ⟨List.mem_map.mpr ⟨(d, rs), hmem, rfl⟩, ?_⟩
    simp [hwrev]

theorem claim2_tie_first_record_witness :
    (selOf 1 c2ra = 2 ∧ selOf 1 c2rb = 2 ∧
      (entriesOf ["a", "b"] 1 [c2ra, c2rb]).find? (fun e => e.2 = 2) = some ("a", 2)) ∧
    ((∃ wins tot,
        processPoint ["a", "b"] ["a", "b"] [("d", [c2ra, c2rb])] 1 = .ok (wins, tot) ∧
        ∃ l, alookup wins "a" = .ok l ∧ "d" ∈ l) ∧
      (∃ wins' tot',
        processPoint (["a", "b"] : List String).reverse (["a", "b"] : List String).reverse
            [("d", [c2ra, c2rb])] 1 = .ok (wins', tot') ∧
        ∃ l, alookup wins' "a" = .ok l ∧ "d" ∈ l)) := by
  refine ⟨⟨by with_unfolding_all decide, by with_unfolding_all decide,
    by with_unfolding_all decide⟩, ?_⟩
  refine claim2_tie_first_record ["a", "b"] ["a", "b"] rfl [("d", [c2ra, c2rb])] 1
    ?_ ?_ "d" [c2ra, c2rb] (by simp) 2 ("a", 2) (by with_unfolding_all decide)
    (by with_unfolding_all decide) (by with_unfolding_all decide)
  · intro p hpd r hr hm
    have hp' : p = ("d", [c2ra, c2rb]) := by simpa using hpd
    subst hp'
    rcases List.mem_cons.mp hr with hr' | hr'
    · subst hr'
      exact ⟨⟨2, by with_unfolding_all decide⟩, ⟨0, by with_unfolding_all decide⟩⟩
    · rcases List.mem_cons.mp hr' with hr'' | hr''
      · subst hr''
        exact ⟨⟨2, by with_unfolding_all decide⟩, ⟨0, by with_unfolding_all decide⟩⟩
      · cases hr''
  · intro p hpd
    have hp' : p = ("d", [c2ra, c2rb]) := by simpa using hpd
    subst hp'
    exact ⟨c2ra, by simp, by decide, by with_unfolding_all decide⟩

/-! ### Claim C6 -/

/-- For finitely many (outputBytes, computeTime) pairs with positive
compute times, some bandwidth bound makes every
`outputBytes / (b * 1024 * 1024)` at most every compute time. -/
lemma exists_bw_bound (pairs : List (ℚ × ℚ)) (hpos : ∀ p ∈ pairs, 0 < p.2) :
    ∃ B : ℕ, 1 ≤ B ∧ ∀ b : ℕ, B ≤ b → ∀ p ∈ pairs,
      p.1 / ((b : ℚ) * 1024 * 1024) ≤ p.2 := by
  induction pairs with
  | nil => exact ⟨1, le_refl 1, fun b _ p hp => absurd hp (List.not_mem_nil p)⟩
  | cons q pairs ih =>
    obtain ⟨B, hB1, hB⟩ := ih (fun p hp => hpos p (by simp [hp]))
    have hq : 0 < q.2 := hpos q (by simp)
    refine ⟨max (max 1 (Nat.ceil (q.1 / (q.2 * (1024 * 1024))))) B, ?_, ?_⟩
    · exact le_trans (le_max_left 1 _) (le_max_left _ B)
    · intro b hb p hp
      have hb1 : 1 ≤ b :=
        le_trans (le_trans (le_max_left 1 _) (le_max_left _ B)) hb
      have hbq : (0 : ℚ) < (b : ℚ) * 1024 * 1024 := by
        have : (0 : ℚ) < (b : ℚ) := by
          exact_mod_cast Nat.lt_of_lt_of_le Nat.zero_lt_one hb1
        have h1 : (0 : ℚ) < (b : ℚ) * 1024 := mul_pos this (by norm_num)
        exact mul_pos h1 (by norm_num)
      rcases List.mem_cons.mp hp with hq' | hp'
      · subst hq'
        rw [div_le_iff₀ hbq]
        have hceil : p.1 / (p.2 * (1024 * 1024)) ≤
            ((Nat.ceil (p.1 / (p.2 * (1024 * 1024))) : ℕ) : ℚ) := Nat.le_ceil _
        have hble : ((Nat.ceil (p.1 / (p.2 * (1024 * 1024))) : ℕ) : ℚ) ≤ (b : ℚ) := by
          exact_mod_cast le_trans (le_trans (le_max_right 1 _) (le_max_left _ B)) hb
        have hbig : p.1 / (p.2 * (1024 * 1024)) ≤ (b : ℚ) := le_trans hceil hble
        have hpos2 : (0 : ℚ) < p.2 * (1024 * 1024) := mul_pos hq (by norm_num)
        calc p.1 = p.1 / (p.2 * (1024 * 1024)) * (p.2 * (1024 * 1024)) := by
              field_simp
          _ ≤ (b : ℚ) * (p.2 * (1024 * 1024)) :=
              mul_le_mul_of_nonneg_right hbig (le_of_lt hpos2)
          _ = p.2 * ((b : ℚ) * 1024 * 1024) := by ring
      · exact hB b (le_trans (le_max_right _ B) hb) p hp'

/-- C6.  For one dataset, if every participating record has a positive
compute time below the `10^20` sentinel and parseable fields, then there
is a bandwidth bound `B ≥ 1` such that for every bandwidth `b ≥ B`:
every record's ioTime is at most every record's computeTime; the
dataset's winner is the same as at `B` (stabilization); and the winner
is a participating record of minimum computeTime. -/
theorem claim6_bandwidth_stabilization (Lall : List String) (rs : List Result)
    (tot₀ : List (String × ℚ))
    (hk : ∀ r ∈ rs, r.algorithm ∈ Lall → r.algorithm ∈ tot₀.map Prod.fst)
    (hp : ∀ r ∈ rs, r.algorithm ∈ Lall →
      ∃ c o, pyFloat r.computeTime = .ok c ∧ pyFloat r.outputBytes = .ok o ∧
        0 < c ∧ c < bigInit)
    (hne : ∃ r ∈ rs, r.algorithm ∈ Lall) :
    ∃ B : ℕ, 1 ≤ B ∧ ∀ b : ℕ, B ≤ b →
      (∀ r ∈ rs, r.algorithm ∈ Lall → ∀ s ∈ rs, s.algorithm ∈ Lall →
        floatOf r.outputBytes / ((b : ℚ) * 1024 * 1024) ≤ floatOf s.computeTime) ∧
      (∃ st stB, processDataset Lall b tot₀ rs = .ok st ∧
        processDataset Lall B tot₀ rs = .ok stB ∧ st.bestAlgo = stB.bestAlgo) ∧
      (∃ st, processDataset Lall b tot₀ rs = .ok st ∧
        ∃ r ∈ rs, r.algorithm ∈ Lall ∧ st.bestAlgo = r.algorithm ∧
          ∀ s ∈ rs, s.algorithm ∈ Lall →
            floatOf r.computeTime ≤ floatOf s.computeTime) := by
  have hparse : ∀ r ∈ rs, r.algorithm ∈ Lall →
      (∃ c, pyFloat r.computeTime = .ok c) ∧ (∃ o, pyFloat r.outputBytes = .ok o) := by
    intro r hr hm
    obtain ⟨c, o, hc, ho, _, _⟩ := hp r hr hm
    exact ⟨⟨c, hc⟩, ⟨o, ho⟩⟩
  have hcpos : ∀ r ∈ rs, r.algorithm ∈ Lall → 0 < floatOf r.computeTime := by
    intro r hr hm
    obtain ⟨c, o, hc, _, hcp, _⟩ := hp r hr hm
    rw [floatOf_eq hc]
    exact hcp
  have hcbig : ∀ r ∈ rs, r.algorithm ∈ Lall → floatOf r.computeTime < bigInit := by
    intro r hr hm
    obtain ⟨c, o, hc, _, _, hcb⟩ := hp r hr hm
    rw [floatOf_eq hc]
    exact hcb
  set part := participating Lall rs with hpart
  set pairs :=
    (part.map (fun r => floatOf r.outputBytes)).product
      (part.map (fun r => floatOf r.computeTime)) with hpairs
  have hpos : ∀ p ∈ pairs, 0 < p.2 := by
    intro p hpin
    obtain ⟨_, h2⟩ := List.pair_mem_product.mp hpin
    obtain ⟨s, hs, hse⟩ := List.mem_map.mp h2
    rw [← hse]
    exact hcpos s (mem_participating.mp hs).1 (mem_participating.mp hs).2
  obtain ⟨B, hB1, hB⟩ := exists_bw_bound pairs hpos
  have hio : ∀ b : ℕ, B ≤ b → ∀ r ∈ rs, r.algorithm ∈ Lall → ∀ s ∈ rs, s.algorithm ∈ Lall →
      floatOf r.outputBytes / ((b : ℚ) * 1024 * 1024) ≤ floatOf s.computeTime := by
    intro b hb r hr hmr s hs hms
    refine hB b hb (floatOf r.outputBytes, floatOf s.computeTime) ?_
    refine List.pair_mem_product.mpr ⟨?_, ?_⟩
    · exact List.mem_map.mpr ⟨r, mem_participating.mpr ⟨hr, hmr⟩, rfl⟩
    · exact List.mem_map.mpr ⟨s, mem_participating.mpr ⟨hs, hms⟩, rfl⟩
  -- at any b ≥ B the entries list degenerates to compute times
  have hent : ∀ b : ℕ, B ≤ b → entriesOf Lall b rs =
      part.map (fun r => (r.algorithm, floatOf r.computeTime)) := by
    intro b hb
    refine List.map_congr_left (fun r hr => ?_)
    have hrs := (mem_participating.mp hr).1
    have hrm := (mem_participating.mp hr).2
    have : selOf b r = floatOf r.computeTime := by
      unfold selOf
      exact max_eq_left (hio b hb r hrs hrm r hrs hrm)
    rw [this]
  obtain ⟨r₀, hr₀, hm₀⟩ := hne
  have hentC : ∃ e ∈ part.map (fun r => (r.algorithm, floatOf r.computeTime)),
      e.2 < bigInit := by
    refine ⟨(r₀.algorithm, floatOf r₀.computeTime),
      List.mem_map.mpr ⟨r₀, mem_participating.mpr ⟨hr₀, hm₀⟩, rfl⟩, ?_⟩
    exact hcbig r₀ hr₀ hm₀
  refine ⟨B, hB1, fun b hb => ⟨hio b hb, ?_, ?_⟩⟩
  · refine ⟨_, _, processDataset_eq hparse hk, processDataset_eq hparse hk, ?_⟩
    show (bestFold (entriesOf Lall b rs) ("dummy", bigInit)).1 =
      (bestFold (entriesOf Lall B rs) ("dummy", bigInit)).1
    rw [hent b hb, hent B (le_refl B)]
  · refine ⟨_, processDataset_eq hparse hk, ?_⟩
    show ∃ r ∈ rs, r.algorithm ∈ Lall ∧
      (bestFold (entriesOf Lall b rs) ("dummy", bigInit)).1 = r.algorithm ∧ _
    rw [hent b hb]
    obtain ⟨e, he, helt⟩ := hentC
    rcases bestFold_cases (part.map (fun r => (r.algorithm, floatOf r.computeTime)))
      ("dummy", bigInit) with hcase | ⟨e', he', hcase⟩
    · exfalso
      have h2 := (bestFold_snd_le (part.map (fun r => (r.algorithm, floatOf r.computeTime)))
        ("dummy", bigInit)).2 e he
      rw [hcase] at h2
      exact absurd h2 (not_le.mpr helt)
    · obtain ⟨r, hr, hre⟩ := List.mem_map.mp he'
      refine ⟨r, (mem_participating.mp hr).1, (mem_participating.mp hr).2, ?_, ?_⟩
      · rw [hcase, ← hre]
      · intro s hs hms
        have hmem' : (s.algorithm, floatOf s.computeTime) ∈
            part.map (fun r => (r.algorithm, floatOf r.computeTime)) :=
          List.mem_map.mpr ⟨s, mem_participating.mpr ⟨hs, hms⟩, rfl⟩
        have h2 := (bestFold_snd_le (part.map (fun r => (r.algorithm, floatOf r.computeTime)))
          ("dummy", bigInit)).2 _ hmem'
        rw [hcase] at h2
        have : floatOf r.computeTime = e'.2 := by rw [← hre]
        rw [this]
        exact h2

theorem claim6_bandwidth_stabilization_witness :
    ((∃ r ∈ [c3ra, c3rb], r.algorithm ∈ ["a", "b"]) ∧
      pyFloat c3rb.computeTime = .ok 1) ∧
    (∃ B : ℕ, 1 ≤ B ∧ ∀ b : ℕ, B ≤ b →
      (∀ r ∈ [c3ra, c3rb], r.algorithm ∈ ["a", "b"] →
        ∀ s ∈ [c3ra, c3rb], s.algorithm ∈ ["a", "b"] →
          floatOf r.outputBytes / ((b : ℚ) * 1024 * 1024) ≤ floatOf s.computeTime) ∧
      (∃ st stB, processDataset ["a", "b"] b [("a", 0), ("b", 0)] [c3ra, c3rb] = .ok st ∧
        processDataset ["a", "b"] B [("a", 0), ("b", 0)] [c3ra, c3rb] = .ok stB ∧
        st.bestAlgo = stB.bestAlgo) ∧
      (∃ st, processDataset ["a", "b"] b [("a", 0), ("b", 0)] [c3ra, c3rb] = .ok st ∧
        ∃ r ∈ [c3ra, c3rb], r.algorithm ∈ ["a", "b"] ∧ st.bestAlgo = r.algorithm ∧
          ∀ s ∈ [c3ra, c3rb], s.algorithm ∈ ["a", "b"] →
            floatOf r.computeTime ≤ floatOf s.computeTime)) := by
  refine ⟨⟨⟨c3ra, by simp, by decide⟩, by with_unfolding_all decide⟩, ?_⟩
  refine claim6_bandwidth_stabilization ["a", "b"] [c3ra, c3rb] [("a", 0), ("b", 0)]
    ?_ ?_ ⟨c3ra, by simp, by decide⟩
  · intro r hr hm
    rcases List.mem_cons.mp hr with hr' | hr'
    · subst hr'; decide
    · rcases List.mem_cons.mp hr' with hr'' | hr''
      · subst hr''; decide
      · cases hr''
  · intro r hr hm
    rcases List.mem_cons.mp hr with hr' | hr'
    · subst hr'
      exact ⟨2, 0, by with_unfolding_all decide, by with_unfolding_all decide,
        by with_unfolding_all decide, by with_unfolding_all decide⟩
    · rcases List.mem_cons.mp hr' with hr'' | hr''
      · subst hr''
        exact ⟨1, 0, by with_unfolding_all decide, by with_unfolding_all decide,
          by with_unfolding_all decide, by with_unfolding_all decide⟩
      · cases hr''

/-! ### Claim C5 support -/

/-- The set of datasets won by algorithm `a` at one point (the claim's
"partition"). -/
def winsSet (wins : List (String × List String)) (a : String) : Finset String :=
  match alookup wins a with
  | .ok l => l.toFinset
  | .error _ => ∅

lemma winsSet_buildW {L : List String} (w : List (String × String)) {a : String}
    (ha : a ∈ L) :
    winsSet (buildW L w) a = ((w.filter (fun p => p.2 = a)).map Prod.fst).toFinset := by
  unfold winsSet
  rw [alookup_buildW w ha]

/-- Two sublists of a duplicate-free list with the same element set are
equal. -/
lemma sublist_eq_of_toFinset_eq :
    ∀ {l l₁ l₂ : List String}, l₁.Sublist l → l₂.Sublist l → l.Nodup →
      l₁.toFinset = l₂.toFinset → l₁ = l₂ := by
  intro l
  induction l with
  | nil =>
    intro l₁ l₂ h₁ h₂ _ _
    rw [List.sublist_nil.mp h₁, List.sublist_nil.mp h₂]
  | cons x l ih =>
    intro l₁ l₂ h₁ h₂ hnd hface
    have hx : ¬ x ∈ l := (List.nodup_cons.mp hnd).1
    have hndl : l.Nodup := (List.nodup_cons.mp hnd).2
    have hsplit : ∀ {t : List String}, t.Sublist (x :: l) →
        (¬ x ∈ t ∧ t.Sublist l) ∨ ∃ t', t = x :: t' ∧ t'.Sublist l := by
      intro t ht
      cases ht with
      | cons _ h =>
        exact Or.inl ⟨fun hc => hx (List.Sublist.mem hc h), h⟩
      | cons₂ _ h =>
        exact Or.inr ⟨_, rfl, h⟩
    have hmem : x ∈ l₁ ↔ x ∈ l₂ := by
      constructor
      · intro h
        have : x ∈ l₂.toFinset := by
          rw [← hface]
          exact List.mem_toFinset.mpr h
        exact List.mem_toFinset.mp this
      · intro h
        have : x ∈ l₁.toFinset := by
          rw [hface]
          exact List.mem_toFinset.mpr h
        exact List.mem_toFinset.mp this
    rcases hsplit h₁ with ⟨hx₁, hs₁⟩ | ⟨t₁, rfl, hs₁⟩
    · rcases hsplit h₂ with ⟨hx₂, hs₂⟩ | ⟨t₂, rfl, hs₂⟩
      · exact ih hs₁ hs₂ hndl hface
      · exact absurd (hmem.mpr (by simp)) hx₁
    · rcases hsplit h₂ with ⟨hx₂, hs₂⟩ | ⟨t₂, rfl, hs₂⟩
      · exact absurd (hmem.mp (by simp)) hx₂
      · have hxt₁ : ¬ x ∈ t₁ := fun hc => hx (List.Sublist.mem hc hs₁)
        have hxt₂ : ¬ x ∈ t₂ := fun hc => hx (List.Sublist.mem hc hs₂)
        have : t₁.toFinset = t₂.toFinset := by
          have e₁ : t₁.toFinset = (x ::ₘ (t₁ : Multiset String)).toFinset.erase x := by
            simp [Finset.erase_insert, List.mem_toFinset, hxt₁]
          have h₁' : (x :: t₁).toFinset = insert x t₁.toFinset := by
            simp [List.toFinset_cons]
          have h₂' : (x :: t₂).toFinset = insert x t₂.toFinset := by
            simp [List.toFinset_cons]
          have : insert x t₁.toFinset = insert x t₂.toFinset := by
            rw [← h₁', ← h₂', hface]
          have e₂ : t₁.toFinset = (insert x t₁.toFinset).erase x :=
            (Finset.erase_insert (by simp [List.mem_toFinset, hxt₁])).symm
          rw [e₂, this, Finset.erase_insert (by simp [List.mem_toFinset, hxt₂])]
        rw [ih hs₁ hs₂ hndl this]

/-- Whether a change-point block is written is equivalent to the
partition (algorithm to set of won datasets) changing, provided both
`wins` dicts partition the same duplicate-free dataset-key list. -/
lemma buildW_eq_iff_winsSet (L : List String) (w₁ w₂ : List (String × String))
    (keys : List String) (h₁ : w₁.map Prod.fst = keys) (h₂ : w₂.map Prod.fst = keys)
    (hnd : keys.Nodup) :
    buildW L w₁ = buildW L w₂ ↔
      ∀ a ∈ L, winsSet (buildW L w₁) a = winsSet (buildW L w₂) a := by
  constructor
  · intro h a _
    rw [h]
  · intro h
    unfold buildW
    refine List.map_congr_left (fun a ha => ?_)
    have hset := h a ha
    rw [winsSet_buildW w₁ ha, winsSet_buildW w₂ ha] at hset
    have hsub₁ : ((w₁.filter (fun p => p.2 = a)).map Prod.fst).Sublist keys := by
      rw [← h₁]
      exact List.Sublist.map Prod.fst (List.filter_sublist w₁)
    have hsub₂ : ((w₂.filter (fun p => p.2 = a)).map Prod.fst).Sublist keys := by
      rw [← h₂]
      exact List.Sublist.map Prod.fst (List.filter_sublist w₂)
    rw [sublist_eq_of_toFinset_eq hsub₁ hsub₂ hnd hset]

/-- Entry of maximal second component in a nonempty list of pairs. -/
lemma list_exists_max :
    ∀ l : List (String × ℤ), l ≠ [] → ∃ e ∈ l, ∀ x ∈ l, x.2 ≤ e.2 := by
  intro l
  induction l with
  | nil => intro h; exact absurd rfl h
  | cons x l ih =>
    intro _
    rcases Decidable.em (l = []) with rfl | hl
    · exact ⟨x, by simp, by simp⟩
    · obtain ⟨m, hm, hmax⟩ := ih hl
      rcases le_total x.2 m.2 with hxm | hxm
      · refine ⟨m, by simp [hm], ?_⟩
        intro y hy
        rcases List.mem_cons.mp hy with rfl | hy
        · exact hxm
        · exact hmax y hy
      · refine ⟨x, by simp, ?_⟩
        intro y hy
        rcases List.mem_cons.mp hy with rfl | hy
        · exact le_refl y.2
        · exact le_trans (hmax y hy) hxm

/-- The code's global-best scan picks the first algorithm in allow-list
order attaining the maximal win count. -/
lemma bestOf_first_argmax (L : List String) (wins : List (String × List String))
    (hL : L ≠ []) :
    ∃ a ∈ L, (bestOf L wins).1 = a ∧
      (∀ b ∈ L, (winsGet wins b).length ≤ (winsGet wins a).length) ∧
      L.find? (fun b => (winsGet wins b).length = (winsGet wins a).length) = some a := by
  set es := L.map (fun a => (a, ((winsGet wins a).length : ℤ))) with hes
  have hesne : es ≠ [] := by
    simp only [hes, ne_eq, List.map_eq_nil_iff]
    exact hL
  obtain ⟨e, hem, hemax⟩ := list_exists_max es hesne
  set m := e.2 with hm
  have hmmem : ∃ e' ∈ es, e'.2 = m := ⟨e, hem, rfl⟩
  have hfind : ∃ e₀, es.find? (fun e' => e'.2 = m) = some e₀ := by
    have : (es.find? (fun e' => e'.2 = m)).isSome := by
      rw [List.find?_isSome]
      obtain ⟨e', he', h2⟩ := hmmem
      exact ⟨e', he', by simp [h2]⟩
    exact Option.isSome_iff_exists.mp this
  obtain ⟨e₀, hfind⟩ := hfind
  have he₀mem : e₀ ∈ es := List.mem_of_find?_eq_some hfind
  have he₀val : e₀.2 = m := by
    have := List.find?_some hfind
    simpa using this
  obtain ⟨a, haL, hae⟩ := List.mem_map.mp he₀mem
  have hm0 : (-1 : ℤ) < m := by
    obtain ⟨e', he', h2⟩ := hmmem
    obtain ⟨b, _, hbe⟩ := List.mem_map.mp he'
    rw [← h2, ← hbe]
    have : (0 : ℤ) ≤ ((winsGet wins b).length : ℤ) := Int.ofNat_nonneg _
    omega
  have hmf := maxFold_first_max es ("dummy", -1) hm0 (fun e' he' => hemax e' he') hfind
  have hbo : bestOf L wins = (e₀.1, m) := by
    rw [bestOf_eq_maxFold, ← hes, hmf]
  have hcount : ((winsGet wins a).length : ℤ) = m := by
    have : e₀.2 = ((winsGet wins a).length : ℤ) := by rw [← hae]
    rw [← this, he₀val]
  refine ⟨a, haL, ?_, ?_, ?_⟩
  · rw [hbo, ← hae]
  · intro b hb
    have hbmem : (b, ((winsGet wins b).length : ℤ)) ∈ es :=
      List.mem_map.mpr ⟨b, hb, rfl⟩
    have := hemax _ hbmem
    have hcast : ((winsGet wins b).length : ℤ) ≤ ((winsGet wins a).length : ℤ) := by
      rw [hcount]
      exact this
    exact_mod_cast hcast
  · have htrans : es.find? (fun e' => e'.2 = m) =
        (L.find? (fun b => ((winsGet wins b).length : ℤ) = m)).map
          (fun a => (a, ((winsGet wins a).length : ℤ))) := by
      rw [hes, List.find?_map]
      rfl
    rw [htrans] at hfind
    obtain ⟨a', hfa, hfa2⟩ := Option.map_eq_some'.mp hfind
    have haa : a' = a := by
      have : (a', ((winsGet wins a').length : ℤ)) = e₀ := hfa2
      rw [← hae] at this
      exact (Prod.mk.injEq _ _ _ _).mp this |>.1
    subst haa
    rw [← hfa]
    refine congrFun (congrArg List.find? (funext (fun b => ?_))) L
    refine decide_eq_decide.mpr ?_
    constructor
    · intro h
      have h' : ((winsGet wins b).length : ℤ) = ((winsGet wins a').length : ℤ) := by
        exact_mod_cast h
      rw [h', hcount]
    · intro h
      exact_mod_cast h.trans hcount.symm

lemma except_bind_err {α β : Type} (e : String) (f : α → Except String β) :
    (Except.error (α := α) e >>= f) = .error e := rfl

lemma pointStep_err_pd {Lall : List String} {bw : ℕ}
    {wins : List (String × List String)} {tot : List (String × ℚ)}
    {p : String × List Result} {e : String}
    (hpd : processDataset Lall bw tot p.2 = .error e) :
    pointStep Lall bw (wins, tot) p = .error e := by
  unfold pointStep
  simp only [hpd]

lemma pointStep_err_update {Lall : List String} {bw : ℕ}
    {wins : List (String × List String)} {tot : List (String × ℚ)}
    {p : String × List Result} {st : DState} {e : String}
    (hpd : processDataset Lall bw tot p.2 = .ok st)
    (hup : aupdate wins st.bestAlgo (fun l => l ++ [p.1]) = .error e) :
    pointStep Lall bw (wins, tot) p = .error e := by
  unfold pointStep
  simp only [hpd, hup]

lemma foldlM_pointStep_struct (L Lall : List String) (bw : ℕ) :
    ∀ (d2r : List (String × List Result)) (w₀ : List (String × String))
      (tot₀ : List (String × ℚ)) (wins : List (String × List String))
      (tot : List (String × ℚ)),
      d2r.foldlM (pointStep Lall bw) (buildW L w₀, tot₀) = .ok (wins, tot) →
      ∃ w, wins = buildW L (w₀ ++ w) ∧ w.map Prod.fst = d2r.map Prod.fst := by
  intro d2r
  induction d2r with
  | nil =>
    intro w₀ tot₀ wins tot h
    have h' : (buildW L w₀, tot₀) = (wins, tot) := by
      exact (Except.ok.injEq _ _).mp h
    refine ⟨[], ?_, rfl⟩
    rw [List.append_nil, (Prod.mk.injEq _ _ _ _).mp h' |>.1]
  | cons p d2r ih =>
    intro w₀ tot₀ wins tot h
    rw [List.foldlM_cons] at h
    cases hpd : processDataset Lall bw tot₀ p.2 with
    | error e =>
      rw [pointStep_err_pd hpd, except_bind_err] at h
      exact Except.noConfusion h
    | ok st =>
      by_cases hmem : st.bestAlgo ∈ L
      · rw [pointStep_ok hpd (buildW_append L w₀ hmem p.1), except_bind_ok] at h
        obtain ⟨w, hw, hwf⟩ := ih (w₀ ++ [(p.1, st.bestAlgo)]) st.tot wins tot h
        refine ⟨(p.1, st.bestAlgo) :: w, ?_, ?_⟩
        · rw [hw, List.append_assoc]
          rfl
        · simp [hwf]
      · have herr := aupdate_err_of_not_mem (t := buildW L w₀) (k := st.bestAlgo)
          (fun l => l ++ [p.1]) (by rw [buildW_keys]; exact hmem)
        rw [pointStep_err_update hpd herr, except_bind_err] at h
        exact Except.noConfusion h

/-- Any successful bandwidth point's `wins` dict partitions exactly the
dataset keys of the swept map. -/
lemma processPoint_ok_struct {L Lall : List String}
    {d2r : List (String × List Result)} {bw : ℕ}
    {wins : List (String × List String)} {tot : List (String × ℚ)}
    (h : processPoint L Lall d2r bw = .ok (wins, tot)) :
    ∃ w, wins = buildW L w ∧ w.map Prod.fst = d2r.map Prod.fst := by
  have h' : d2r.foldlM (pointStep Lall bw)
      (buildW L [], L.map (fun a => (a, (0 : ℚ)))) = .ok (wins, tot) := h
  obtain ⟨w, hw, hwf⟩ := foldlM_pointStep_struct L Lall bw d2r [] _ wins tot h'
  exact ⟨w, by rw [hw, List.nil_append], hwf⟩

lemma sweepGo_cons_err {L Lall : List String} {d2r : List (String × List Result)}
    {bw : ℕ} {rest : List ℕ} {lw : List (String × List String)} {lb : String}
    {e : String} (hpp : processPoint L Lall d2r bw = .error e) :
    sweepGo L Lall d2r (bw :: rest) lw lb = ([], some e) := by
  unfold sweepGo
  rw [hpp]

lemma sweepGo_cons_ok {L Lall : List String} {d2r : List (String × List Result)}
    {bw : ℕ} {rest : List ℕ} {lw : List (String × List String)} {lb : String}
    {wins : List (String × List String)} {tot : List (String × ℚ)}
    (hpp : processPoint L Lall d2r bw = .ok (wins, tot)) :
    sweepGo L Lall d2r (bw :: rest) lw lb =
      ((⟨bw, wins, tot, (bestOf L wins).1, decide (lw ≠ wins),
          decide (lb ≠ (bestOf L wins).1)⟩ : PointOut) ::
        (sweepGo L Lall d2r rest wins
          (if decide (lb ≠ (bestOf L wins).1) = true then (bestOf L wins).1 else lb)).1,
       (sweepGo L Lall d2r rest wins
          (if decide (lb ≠ (bestOf L wins).1) = true then (bestOf L wins).1 else lb)).2) := by
  conv_lhs => rw [sweepGo]
  rw [hpp]

lemma if_printed_collapse (lb best : String) :
    (if decide (lb ≠ best) = true then best else lb) = best := by
  by_cases h : lb = best
  · simp [h]
  · simp [h]

/-- The flag discipline of the bandwidth loop: every point's block and
progress flags are computed against its predecessor's `wins` dict and
best algorithm. -/
def chainedFrom : List (String × List String) → String → List PointOut → Prop
  | _, _, [] => True
  | lw, lb, p :: rest =>
    p.wroteBlock = decide (lw ≠ p.wins) ∧ p.printedProgress = decide (lb ≠ p.bestAlgo) ∧
      chainedFrom p.wins p.bestAlgo rest

lemma sweepGo_chained (L Lall : List String) (d2r : List (String × List Result)) :
    ∀ (bws : List ℕ) (lw : List (String × List String)) (lb : String),
      chainedFrom lw lb (sweepGo L Lall d2r bws lw lb).1 := by
  intro bws
  induction bws with
  | nil => intro lw lb; exact trivial
  | cons bw rest ih =>
    intro lw lb
    cases hpp : processPoint L Lall d2r bw with
    | error e =>
      rw [sweepGo_cons_err hpp]
      exact trivial
    | ok pr =>
      obtain ⟨wins, tot⟩ := pr
      rw [sweepGo_cons_ok hpp]
      refine ⟨rfl, rfl, ?_⟩
      show chainedFrom wins ((bestOf L wins).1) _
      rw [if_printed_collapse lb ((bestOf L wins).1)]
      exact ih wins ((bestOf L wins).1)

lemma chained_getElem :
    ∀ (pts : List PointOut) (lw : List (String × List String)) (lb : String),
      chainedFrom lw lb pts →
      ∀ i, (hi : i + 1 < pts.length) →
        pts[i + 1].wroteBlock = decide (pts[i].wins ≠ pts[i + 1].wins) ∧
        pts[i + 1].printedProgress = decide (pts[i].bestAlgo ≠ pts[i + 1].bestAlgo) := by
  intro pts
  induction pts with
  | nil =>
    intro lw lb _ i hi
    simp at hi
  | cons p pts ih =>
    intro lw lb hch i hi
    obtain ⟨h1, h2, hch'⟩ := hch
    cases i with
    | zero =>
      cases pts with
      | nil => simp at hi
      | cons q pts' =>
        obtain ⟨hq1, hq2, _⟩ := hch'
        exact ⟨hq1, hq2⟩
    | succ i =>
      have hi' : i + 1 < pts.length := by
        simpa using hi
      have := ih p.wins p.bestAlgo hch' i hi'
      simpa using this

lemma sweepGo_points_struct (L Lall : List String) (d2r : List (String × List Result)) :
    ∀ (bws : List ℕ) (lw : List (String × List String)) (lb : String)
      (p : PointOut), p ∈ (sweepGo L Lall d2r bws lw lb).1 →
      (∃ w, p.wins = buildW L w ∧ w.map Prod.fst = d2r.map Prod.fst) ∧
      p.bestAlgo = (bestOf L p.wins).1 := by
  intro bws
  induction bws with
  | nil =>
    intro lw lb p hp
    exact absurd hp (List.not_mem_nil p)
  | cons bw rest ih =>
    intro lw lb p hp
    cases hpp : processPoint L Lall d2r bw with
    | error e =>
      rw [sweepGo_cons_err hpp] at hp
      exact absurd hp (List.not_mem_nil p)
    | ok pr =>
      obtain ⟨wins, tot⟩ := pr
      rw [sweepGo_cons_ok hpp] at hp
      rcases List.mem_cons.mp hp with rfl | hp'
      · exact ⟨processPoint_ok_struct hpp, rfl⟩
      · exact ih wins _ p hp'

/-! ### Claim C5 -/

/-- C5.  After the first bandwidth point, a change-point block is
written iff the win partition (algorithm to set of won datasets)
differs from the previous point's partition, and the progress line is
printed iff the globally best algorithm differs from the previous
point's; moreover the recorded best algorithm is the first algorithm in
allow-list order attaining the maximal win count. -/
theorem claim5_transition_flags (L Lall : List String)
    (d2r : List (String × List Result)) (filename : String) (bws : List ℕ)
    (pts : List PointOut)
    (hpts : pts = (runBandwidthCalculations d2r L Lall filename bws).points)
    (hnd : (d2r.map Prod.fst).Nodup) (i : ℕ) (hi : i + 1 < pts.length) :
    (pts[i + 1].wroteBlock = true ↔
      ∃ a ∈ L, winsSet pts[i + 1].wins a ≠ winsSet pts[i].wins a) ∧
    (pts[i + 1].printedProgress = true ↔ pts[i + 1].bestAlgo ≠ pts[i].bestAlgo) ∧
    (L ≠ [] → ∃ a ∈ L, pts[i + 1].bestAlgo = a ∧
      (∀ b ∈ L, (winsGet pts[i + 1].wins b).length ≤ (winsGet pts[i + 1].wins a).length) ∧
      L.find? (fun b => (winsGet pts[i + 1].wins b).length =
        (winsGet pts[i + 1].wins a).length) = some a) := by
  by_cases hd : d2r.length = 0
  · exfalso
    rw [hpts] at hi
    unfold runBandwidthCalculations at hi
    rw [if_pos hd] at hi
    simp at hi
  · have hpts' : pts = (sweepGo L Lall d2r bws [] "dummy").1 := by
      rw [hpts]
      unfold runBandwidthCalculations
      rw [if_neg hd]
    have hch : chainedFrom [] "dummy" pts := by
      rw [hpts']
      exact sweepGo_chained L Lall d2r bws [] "dummy"
    obtain ⟨hblock, hprog⟩ := chained_getElem pts [] "dummy" hch i hi
    have hstruct : ∀ p ∈ pts,
        (∃ w, p.wins = buildW L w ∧ w.map Prod.fst = d2r.map Prod.fst) ∧
        p.bestAlgo = (bestOf L p.wins).1 := by
      intro p hp
      rw [hpts'] at hp
      exact sweepGo_points_struct L Lall d2r bws [] "dummy" p hp
    have hmem1 : pts[i + 1] ∈ pts := List.getElem_mem hi
    have hmem0 : pts[i] ∈ pts := List.getElem_mem (Nat.lt_of_succ_lt hi)
    obtain ⟨⟨w₁, hw₁, hwf₁⟩, hb₁⟩ := hstruct _ hmem1
    obtain ⟨⟨w₀, hw₀, hwf₀⟩, _⟩ := hstruct _ hmem0
    refine ⟨?_, ?_, ?_⟩
    · rw [hblock, decide_eq_true_eq]
      constructor
      · intro hne
        by_contra hall
        push_neg at hall
        have : pts[i + 1].wins = pts[i].wins := by
          rw [hw₁, hw₀]
          rw [hw₁, hw₀] at hall
          exact (buildW_eq_iff_winsSet L w₁ w₀ (d2r.map Prod.fst) hwf₁ hwf₀ hnd).mpr
            (fun a ha => hall a ha)
        exact hne this.symm
      · intro ⟨a, ha, hne⟩ hc
        rw [hc] at hne
        exact hne rfl
    · rw [hprog, decide_eq_true_eq]
      exact ne_comm
    · intro hL
      obtain ⟨a, haL, hba, hmax, hfind⟩ := bestOf_first_argmax L pts[i + 1].wins hL
      exact ⟨a, haL, by rw [hb₁, hba], hmax, hfind⟩

theorem claim5_transition_flags_witness :
    (([("d", [c3ra, c3rb])].map
        (Prod.fst : String × List Result → String)).Nodup ∧
      0 + 1 < (runBandwidthCalculations [("d", [c3ra, c3rb])] ["a", "b"] ["a", "b"]
        "all" [1, 2]).points.length) ∧
    (((runBandwidthCalculations [("d", [c3ra, c3rb])] ["a", "b"] ["a", "b"]
        "all" [1, 2]).points.get ⟨1, by with_unfolding_all decide⟩).printedProgress = true ↔
      ((runBandwidthCalculations [("d", [c3ra, c3rb])] ["a", "b"] ["a", "b"]
        "all" [1, 2]).points.get ⟨1, by with_unfolding_all decide⟩).bestAlgo ≠
      ((runBandwidthCalculations [("d", [c3ra, c3rb])] ["a", "b"] ["a", "b"]
        "all" [1, 2]).points.get ⟨0, by with_unfolding_all decide⟩).bestAlgo) := by
  refine ⟨⟨by decide, by with_unfolding_all decide⟩, ?_⟩
  exact (claim5_transition_flags ["a", "b"] ["a", "b"] [("d", [c3ra, c3rb])] "all" [1, 2]
    _ rfl (by decide) 0 (by with_unfolding_all decide)).2.1

/-! ### Claims C7, C8, C9: error paths -/

/-- The message of a Python 2 float conversion failure. -/
def floatErrMsg (s : String) : String := "could not convert string to float: " ++ s

lemma pyFloat_error_msg {s e : String} (h : pyFloat s = .error e) : e = floatErrMsg s := by
  unfold pyFloat at h
  cases hc : pyFloatCore (pyStripList s.toList) with
  | some q => rw [hc] at h; exact Except.noConfusion h
  | none =>
    rw [hc] at h
    have := (Except.error.injEq _ _).mp h
    exact this.symm

lemma except_isOk_false {α : Type} {x : Except String α} (h : x.isOk = false) :
    ∃ e, x = .error e := by
  cases x with
  | error e => exact ⟨e, rfl⟩
  | ok a => exact Bool.noConfusion h

lemma except_isOk_of_not_false {α : Type} {x : Except String α} (h : ¬ x.isOk = false) :
    ∃ a, x = .ok a := by
  cases x with
  | error e => exact absurd rfl h
  | ok a => exact ⟨a, rfl⟩

lemma stepRecord_err_c {Lall : List String} {bw : ℕ} {st : DState} {r : Result} {ec : String}
    (h : r.algorithm ∈ Lall) (hc : pyFloat r.computeTime = .error ec) :
    stepRecord Lall bw st r = .error ec := by
  unfold stepRecord
  rw [if_pos h]
  simp only [hc]

lemma stepRecord_err_o {Lall : List String} {bw : ℕ} {st : DState} {r : Result}
    {c : ℚ} {eo : String}
    (h : r.algorithm ∈ Lall) (hc : pyFloat r.computeTime = .ok c)
    (ho : pyFloat r.outputBytes = .error eo) :
    stepRecord Lall bw st r = .error eo := by
  unfold stepRecord
  rw [if_pos h]
  simp only [hc, ho]

lemma stepRecord_ok_keys {Lall : List String} {bw : ℕ} {st st' : DState} {r : Result}
    (h : stepRecord Lall bw st r = .ok st') :
    st'.tot.map Prod.fst = st.tot.map Prod.fst := by
  unfold stepRecord at h
  by_cases hm : r.algorithm ∈ Lall
  · rw [if_pos hm] at h
    cases hc : pyFloat r.computeTime with
    | error ec =>
      simp only [hc] at h
      exact Except.noConfusion h
    | ok c =>
      simp only [hc] at h
      cases ho : pyFloat r.outputBytes with
      | error eo =>
        simp only [ho] at h
        exact Except.noConfusion h
      | ok o =>
        simp only [ho] at h
        by_cases hmem : r.algorithm ∈ st.tot.map Prod.fst
        · simp only [aupdate_ok_of_mem _ hmem] at h
          by_cases hcmp : st.bestAlgoTime > max c (o / ((bw : ℚ) * 1024 * 1024))
          · rw [if_pos hcmp] at h
            have := (Except.ok.injEq _ _).mp h
            rw [← this]
            exact map_fst_if_update st.tot r.algorithm
              (fun x => x + max c (o / ((bw : ℚ) * 1024 * 1024)))
          · rw [if_neg hcmp] at h
            have := (Except.ok.injEq _ _).mp h
            rw [← this]
            exact map_fst_if_update st.tot r.algorithm
              (fun x => x + max c (o / ((bw : ℚ) * 1024 * 1024)))
        · simp only [aupdate_err_of_not_mem _ hmem] at h
          exact Except.noConfusion h
  · rw [if_neg hm] at h
    have := (Except.ok.injEq _ _).mp h
    rw [← this]

/-- Any error raised by the record loop is a float-conversion error of
one of the dataset's participating records (key errors are excluded by
`hk`). -/
lemma foldlM_stepRecord_error (Lall : List String) (bw : ℕ) :
    ∀ (rs : List Result) (st : DState) (e : String),
      (∀ r ∈ rs, r.algorithm ∈ Lall → r.algorithm ∈ st.tot.map Prod.fst) →
      rs.foldlM (stepRecord Lall bw) st = .error e →
      ∃ r ∈ rs, r.algorithm ∈ Lall ∧
        (e = floatErrMsg r.computeTime ∨ e = floatErrMsg r.outputBytes) := by
  intro rs
  induction rs with
  | nil => intro st e _ h; exact Except.noConfusion h
  | cons r rs ih =>
    intro st e hk h
    rw [List.foldlM_cons] at h
    by_cases hm : r.algorithm ∈ Lall
    · cases hc : pyFloat r.computeTime with
      | error ec =>
        rw [stepRecord_err_c hm hc, except_bind_err] at h
        have he : ec = e := (Except.error.injEq _ _).mp h
        exact ⟨r, by simp, hm, Or.inl (by rw [← he, pyFloat_error_msg hc])⟩
      | ok c =>
        cases ho : pyFloat r.outputBytes with
        | error eo =>
          rw [stepRecord_err_o hm hc ho, except_bind_err] at h
          have he : eo = e := (Except.error.injEq _ _).mp h
          exact ⟨r, by simp, hm, Or.inr (by rw [← he, pyFloat_error_msg ho])⟩
        | ok o =>
          rw [stepRecord_mem hm hc ho (hk r (by simp) hm), except_bind_ok] at h
          obtain ⟨r', hr', hm', he'⟩ := ih _ e (fun r'' hr'' hm'' => by
            show r''.algorithm ∈ (bump st.tot r.algorithm (selOf bw r)).map Prod.fst
            rw [bump_keys]
            exact hk r'' (by simp [hr'']) hm'') h
          exact ⟨r', by simp [hr'], hm', he'⟩
    · rw [stepRecord_not_mem hm, except_bind_ok] at h
      obtain ⟨r', hr', hm', he'⟩ := ih st e (fun r'' hr'' hm'' =>
        hk r'' (by simp [hr'']) hm'') h
      exact ⟨r', by simp [hr'], hm', he'⟩

/-- A dataset containing a participating record with an unparseable
numeric field makes the record loop raise. -/
lemma foldlM_stepRecord_bad (Lall : List String) (bw : ℕ) :
    ∀ (rs : List Result) (st : DState),
      (∃ r ∈ rs, r.algorithm ∈ Lall ∧
        ((pyFloat r.computeTime).isOk = false ∨ (pyFloat r.outputBytes).isOk = false)) →
      ∃ e, rs.foldlM (stepRecord Lall bw) st = .error e := by
  intro rs
  induction rs with
  | nil =>
    intro st hbad
    obtain ⟨r, hr, _⟩ := hbad
    exact absurd hr (List.not_mem_nil r)
  | cons r rs ih =>
    intro st hbad
    rw [List.foldlM_cons]
    cases hsr : stepRecord Lall bw st r with
    | error e => exact ⟨e, by rw [except_bind_err]⟩
    | ok st' =>
      rw [except_bind_ok]
      obtain ⟨r₀, hr₀, hm₀, hb₀⟩ := hbad
      have hr₀rs : r₀ ∈ rs := by
        rcases List.mem_cons.mp hr₀ with hr' | hr'
        · exfalso
          subst hr'
          rcases hb₀ with hb | hb
          · obtain ⟨ec, hec⟩ := except_isOk_false hb
            rw [stepRecord_err_c hm₀ hec] at hsr
            exact Except.noConfusion hsr
          · cases hc : pyFloat r₀.computeTime with
            | error ec =>
              rw [stepRecord_err_c hm₀ hc] at hsr
              exact Except.noConfusion hsr
            | ok c =>
              obtain ⟨eo, heo⟩ := except_isOk_false hb
              rw [stepRecord_err_o hm₀ hc heo] at hsr
              exact Except.noConfusion hsr
        · exact hr'
      exact ih st' ⟨r₀, hr₀rs, hm₀, hb₀⟩

/-- C8 core: a bandwidth point over a dataset map containing a bad
participating numeric field aborts with a float-conversion message
naming one of the participating records' field texts. -/
lemma foldlM_pointStep_badfloat (L Lall : List String) (bw : ℕ) :
    ∀ (d2r : List (String × List Result)) (wins : List (String × List String))
      (tot : List (String × ℚ)),
      wins.map Prod.fst = L → tot.map Prod.fst = L →
      (∀ p ∈ d2r, ∀ r ∈ p.2, r.algorithm ∈ Lall → r.algorithm ∈ L) →
      (∀ p ∈ d2r,
        (∃ r ∈ p.2, r.algorithm ∈ Lall ∧
          ((pyFloat r.computeTime).isOk = false ∨ (pyFloat r.outputBytes).isOk = false)) ∨
        (∃ r ∈ p.2, r.algorithm ∈ Lall ∧ selOf bw r < bigInit)) →
      (∃ p ∈ d2r, ∃ r ∈ p.2, r.algorithm ∈ Lall ∧
        ((pyFloat r.computeTime).isOk = false ∨ (pyFloat r.outputBytes).isOk = false)) →
      ∃ m, d2r.foldlM (pointStep Lall bw) (wins, tot) = .error m ∧
        ∃ p ∈ d2r, ∃ r ∈ p.2, r.algorithm ∈ Lall ∧
          (m = floatErrMsg r.computeTime ∨ m = floatErrMsg r.outputBytes) := by
  intro d2r
  induction d2r with
  | nil =>
    intro wins tot _ _ _ _ hbad
    obtain ⟨p, hp, _⟩ := hbad
    exact absurd hp (List.not_mem_nil p)
  | cons p d2r ih =>
    intro wins tot hkw hkt hk hds hbad
    rw [List.foldlM_cons]
    cases hpd : processDataset Lall bw tot p.2 with
    | error e =>
      obtain ⟨r, hr, hm, he⟩ := foldlM_stepRecord_error Lall bw p.2 _ e
        (fun r' hr' hm' => by rw [hkt]; exact hk p (by simp) r' hr' hm') hpd
      refine ⟨e, ?_, p, by simp, r, hr, hm, he⟩
      rw [pointStep_err_pd hpd, except_bind_err]
    | ok st =>
      have hnotbad : ¬ ∃ r ∈ p.2, r.algorithm ∈ Lall ∧
          ((pyFloat r.computeTime).isOk = false ∨ (pyFloat r.outputBytes).isOk = false) := by
        intro hc
        obtain ⟨e, he⟩ := foldlM_stepRecord_bad Lall bw p.2 ⟨tot, "dummy", bigInit⟩ hc
        rw [show p.2.foldlM (stepRecord Lall bw) ⟨tot, "dummy", bigInit⟩ =
          processDataset Lall bw tot p.2 from rfl, hpd] at he
        exact Except.noConfusion he
      have hparse : ∀ r ∈ p.2, r.algorithm ∈ Lall →
          (∃ c, pyFloat r.computeTime = .ok c) ∧ (∃ o, pyFloat r.outputBytes = .ok o) := by
        intro r hr hm
        constructor
        · refine except_isOk_of_not_false (fun hc => hnotbad ⟨r, hr, hm, Or.inl hc⟩)
        · refine except_isOk_of_not_false (fun hc => hnotbad ⟨r, hr, hm, Or.inr hc⟩)
      have hgood : ∃ r ∈ p.2, r.algorithm ∈ Lall ∧ selOf bw r < bigInit := by
        rcases hds p (by simp) with hb | hg
        · exact absurd hb hnotbad
        · exact hg
      have hpd' := @processDataset_eq Lall bw tot p.2 hparse
        (fun r hr hm => by rw [hkt]; exact hk p (by simp) r hr hm)
      have hst : st = ⟨addEntries tot (entriesOf Lall bw p.2),
          (bestFold (entriesOf Lall bw p.2) ("dummy", bigInit)).1,
          (bestFold (entriesOf Lall bw p.2) ("dummy", bigInit)).2⟩ := by
        rw [hpd] at hpd'
        exact (Except.ok.injEq _ _).mp hpd'
      have hbest : st.bestAlgo ∈ L := by
        obtain ⟨r, hr, hm, hlt⟩ := hgood
        have : ∃ e ∈ entriesOf Lall bw p.2, e.2 < bigInit :=
          ⟨(r.algorithm, selOf bw r),
            List.mem_map.mpr ⟨r, mem_participating.mpr ⟨hr, hm⟩, rfl⟩, hlt⟩
        obtain ⟨r', hr', hm', hw'⟩ := winnerOf_mem this
        rw [hst]
        show winnerOf Lall bw p.2 ∈ L
        rw [hw']
        exact hk p (by simp) r' hr' hm'
      have hup := aupdate_ok_of_mem (t := wins) (k := st.bestAlgo)
        (fun l => l ++ [p.1]) (by rw [hkw]; exact hbest)
      rw [pointStep_ok hpd hup, except_bind_ok]
      have hbad' : ∃ p' ∈ d2r, ∃ r ∈ p'.2, r.algorithm ∈ Lall ∧
          ((pyFloat r.computeTime).isOk = false ∨ (pyFloat r.outputBytes).isOk = false) := by
        obtain ⟨p', hp', hbp'⟩ := hbad
        rcases List.mem_cons.mp hp' with hp'' | hp''
        · exfalso
          subst hp''
          exact hnotbad hbp'
        · exact ⟨p', hp'', hbp'⟩
      obtain ⟨m, hm, p', hp', hr'⟩ := ih
        (wins.map (fun q => if q.1 = st.bestAlgo then (q.1, (fun l => l ++ [p.1]) q.2) else q))
        st.tot
        (by
          rw [map_fst_if_update wins st.bestAlgo (fun l => l ++ [p.1])]
          exact hkw)
        (by rw [hst]; show (addEntries tot _).map Prod.fst = L; rw [addEntries_keys, hkt])
        (fun p' hp' => hk p' (by simp [hp']))
        (fun p' hp' => hds p' (by simp [hp']))
        hbad'
      exact ⟨m, hm, p', by simp [hp'], hr'⟩

/-- C9 core: when every participating record parses and maps into the
`wins`/`tot` key set, but some dataset has no participating record at
all, the point loop raises `KeyError: 'dummy'`. -/
lemma foldlM_pointStep_dummy (L Lall : List String) (bw : ℕ) (hdummy : ¬ "dummy" ∈ L) :
    ∀ (d2r : List (String × List Result)) (wins : List (String × List String))
      (tot : List (String × ℚ)),
      wins.map Prod.fst = L → tot.map Prod.fst = L →
      (∀ p ∈ d2r, ∀ r ∈ p.2, r.algorithm ∈ Lall →
        (∃ c, pyFloat r.computeTime = .ok c) ∧ (∃ o, pyFloat r.outputBytes = .ok o) ∧
          r.algorithm ∈ L) →
      (∃ p ∈ d2r, ∀ r ∈ p.2, ¬ r.algorithm ∈ Lall) →
      d2r.foldlM (pointStep Lall bw) (wins, tot) = .error ("KeyError: '" ++ "dummy" ++ "'") := by
  intro d2r
  induction d2r with
  | nil =>
    intro wins tot _ _ _ hbad
    obtain ⟨p, hp, _⟩ := hbad
    exact absurd hp (List.not_mem_nil p)
  | cons p d2r ih =>
    intro wins tot hkw hkt hparse hbad
    rw [List.foldlM_cons]
    have hpd := @processDataset_eq Lall bw tot p.2
      (fun r hr hm => ⟨(hparse p (by simp) r hr hm).1, (hparse p (by simp) r hr hm).2.1⟩)
      (fun r hr hm => by rw [hkt]; exact (hparse p (by simp) r hr hm).2.2)
    by_cases hgood : ∃ e ∈ entriesOf Lall bw p.2, e.2 < bigInit
    · -- this dataset names a winner in the key set; recurse
      have hbest : winnerOf Lall bw p.2 ∈ L := by
        obtain ⟨r, hr, hm, hw⟩ := winnerOf_mem hgood
        rw [hw]
        exact (hparse p (by simp) r hr hm).2.2
      have hup := aupdate_ok_of_mem (t := wins) (k := winnerOf Lall bw p.2)
        (fun l => l ++ [p.1]) (by rw [hkw]; exact hbest)
      rw [pointStep_ok hpd hup, except_bind_ok]
      have hbad' : ∃ p' ∈ d2r, ∀ r ∈ p'.2, ¬ r.algorithm ∈ Lall := by
        obtain ⟨p', hp', hbp'⟩ := hbad
        rcases List.mem_cons.mp hp' with hp'' | hp''
        · exfalso
          subst hp''
          obtain ⟨e, he, _⟩ := hgood
          obtain ⟨r, hr, _⟩ := List.mem_map.mp he
          exact hbp' r (mem_participating.mp hr).1 (mem_participating.mp hr).2
        · exact ⟨p', hp'', hbp'⟩
      refine ih
        (wins.map (fun q => if q.1 = winnerOf Lall bw p.2 then
          (q.1, (fun l => l ++ [p.1]) q.2) else q))
        (addEntries tot (entriesOf Lall bw p.2))
        ?_ ?_ (fun p' hp' => hparse p' (by simp [hp'])) hbad'
      · rw [map_fst_if_update wins (winnerOf Lall bw p.2) (fun l => l ++ [p.1])]
        exact hkw
      · rw [addEntries_keys, hkt]
    · -- no participating record beats the sentinel: the winner stays "dummy"
      have hall : ∀ e ∈ entriesOf Lall bw p.2, bigInit ≤ e.2 := by
        intro e he
        by_contra hc
        exact hgood ⟨e, he, not_le.mp hc⟩
      have hstay : bestFold (entriesOf Lall bw p.2) ("dummy", bigInit) = ("dummy", bigInit) :=
        bestFold_stays _ _ hall
      have hnd : (⟨addEntries tot (entriesOf Lall bw p.2),
          (bestFold (entriesOf Lall bw p.2) ("dummy", bigInit)).1,
          (bestFold (entriesOf Lall bw p.2) ("dummy", bigInit)).2⟩ : DState).bestAlgo =
          "dummy" := by
        show (bestFold (entriesOf Lall bw p.2) ("dummy", bigInit)).1 = "dummy"
        rw [hstay]
      have herr := aupdate_err_of_not_mem (t := wins) (k := "dummy")
        (fun l => l ++ [p.1]) (by rw [hkw]; exact hdummy)
      rw [pointStep_err_update hpd (by rw [hnd]; exact herr), except_bind_err]

/-! ### Claim C7 -/

/-- Record whose algorithm `x` is outside the allow-list `["a"]`. -/
def c7rx : Result :=
  ⟨"x", "d", "10", "100", "0", "2.0", "2.0", "0.5", "2.0", "", "", "", "", "line x"⟩

/-- C7 counterexample.  A run whose dataset subset is nonempty but whose
records are ALL excluded by the allow-list (so the subset remaining
after allow-list filtering is empty) does NOT warn and skip: it opens
its three report files and aborts with `KeyError: 'dummy'` at the first
bandwidth point of the real sweep domain. -/
theorem claim7_counterexample :
    (∀ p ∈ [("d", [c7rx])], ∀ r ∈ p.2, ¬ r.algorithm ∈ ["a"]) ∧
    (runBandwidthCalculations [("d", [c7rx])] ["a"] ["a"] "all" bandwidthList).warned
      = false ∧
    (runBandwidthCalculations [("d", [c7rx])] ["a"] ["a"] "all" bandwidthList).filesWritten
      = ["all.txt", "all-detailed.dat", "all-absolute.txt"] ∧
    (runBandwidthCalculations [("d", [c7rx])] ["a"] ["a"] "all" bandwidthList).err
      = some "KeyError: 'dummy'" := by
  refine ⟨by decide, by with_unfolding_all decide, by with_unfolding_all decide,
    by with_unfolding_all decide⟩

/-- C7 amended.  The warn-and-skip path triggers exactly when the
dataset map handed to the run (the name-filtered subset, before any
allow-list consideration) is empty: then a warning is printed, no report
file is opened and nothing is written. -/
theorem claim7_empty_map_warns (L Lall : List String) (filename : String)
    (bws : List ℕ) :
    runBandwidthCalculations [] L Lall filename bws =
      { warned := true, filesWritten := [], points := [], err := none } := rfl

/-! ### Claim C8 -/

/-- A 180-byte data line whose computeTime field (bytes 80-95) holds the
non-numeric text `abc`. -/
def c8line : String :=
  "x         d                   1000      123456         65536          1.88      abc            0.5            0.5            400.5               93.1           2.0       12.3      "

/-- C8 counterexample.  The run over a record with computeTime text
`abc` aborts with `could not convert string to float: abc`: the fatal
message names the offending field text only and does not identify (or
even contain) the offending raw input line. -/
theorem claim8_counterexample :
    (Result.ofLine c8line).computeTime = "abc" ∧
    (Result.ofLine c8line).line.length = 174 ∧
    (runBandwidthCalculations [("d", [Result.ofLine c8line])] ["x"] ["x"] "all"
      bandwidthList).err = some "could not convert string to float: abc" ∧
    strContains "could not convert string to float: abc" (Result.ofLine c8line).line
      = false := by
  refine ⟨by decide, by decide, by with_unfolding_all decide, by decide⟩

/-- C8 amended.  If any participating record's computeTime or
outputBytes text is not parseable as a float, the run aborts at the
first bandwidth point with a fatal `ValueError` whose message names the
offending field text (not the raw line); it does not skip the record or
continue (no point is produced).  Hypothesis `hds` rules out the
unrelated `KeyError: 'dummy'` abort by requiring each dataset to hold
either a bad participating record or a participating record beating the
`10^20` sentinel. -/
theorem claim8_fatal_float_error (L Lall : List String)
    (d2r : List (String × List Result)) (filename : String)
    (bw : ℕ) (bws' : List ℕ)
    (hk : ∀ p ∈ d2r, ∀ r ∈ p.2, r.algorithm ∈ Lall → r.algorithm ∈ L)
    (hds : ∀ p ∈ d2r,
      (∃ r ∈ p.2, r.algorithm ∈ Lall ∧
        ((pyFloat r.computeTime).isOk = false ∨ (pyFloat r.outputBytes).isOk = false)) ∨
      (∃ r ∈ p.2, r.algorithm ∈ Lall ∧ selOf bw r < bigInit))
    (hbad : ∃ p ∈ d2r, ∃ r ∈ p.2, r.algorithm ∈ Lall ∧
      ((pyFloat r.computeTime).isOk = false ∨ (pyFloat r.outputBytes).isOk = false)) :
    ∃ m, (runBandwidthCalculations d2r L Lall filename (bw :: bws')).err = some m ∧
      (runBandwidthCalculations d2r L Lall filename (bw :: bws')).points = [] ∧
      ∃ p ∈ d2r, ∃ r ∈ p.2, r.algorithm ∈ Lall ∧
        (m = floatErrMsg r.computeTime ∨ m = floatErrMsg r.outputBytes) := by
  have hne : d2r.length ≠ 0 := by
    obtain ⟨p, hp, _⟩ := hbad
    intro hc
    rw [List.length_eq_zero] at hc
    subst hc
    exact absurd hp (List.not_mem_nil p)
  obtain ⟨m, hm, hw⟩ := foldlM_pointStep_badfloat L Lall bw d2r
    (L.map (fun a => (a, ([] : List String)))) (L.map (fun a => (a, (0 : ℚ))))
    (map_fst_map_pair L _) (map_fst_map_pair L _) hk hds hbad
  have hpp : processPoint L Lall d2r bw = .error m := hm
  refine ⟨m, ?_, ?_, hw⟩
  · unfold runBandwidthCalculations
    rw [if_neg hne]
    rw [sweepGo_cons_err hpp]
  · unfold runBandwidthCalculations
    rw [if_neg hne]
    rw [sweepGo_cons_err hpp]

theorem claim8_fatal_float_error_witness :
    ((pyFloat (Result.ofLine c8line).computeTime).isOk = false ∧
      (Result.ofLine c8line).algorithm ∈ ["x"]) ∧
    (∃ m, (runBandwidthCalculations [("d", [Result.ofLine c8line])] ["x"] ["x"] "all"
        (1 :: [])).err = some m ∧
      (runBandwidthCalculations [("d", [Result.ofLine c8line])] ["x"] ["x"] "all"
        (1 :: [])).points = [] ∧
      ∃ p ∈ [("d", [Result.ofLine c8line])], ∃ r ∈ p.2, r.algorithm ∈ ["x"] ∧
        (m = floatErrMsg r.computeTime ∨ m = floatErrMsg r.outputBytes)) := by
  refine ⟨⟨by decide, by decide⟩, ?_⟩
  refine claim8_fatal_float_error ["x"] ["x"] [("d", [Result.ofLine c8line])] "all" 1 []
    ?_ ?_ ?_
  · intro p hpd r hr hm
    have hp' : p = ("d", [Result.ofLine c8line]) := by simpa using hpd
    subst hp'
    have hr' : r = Result.ofLine c8line := by simpa using hr
    subst hr'
    exact hm
  · intro p hpd
    refine Or.inl ⟨Result.ofLine c8line, ?_, by decide, Or.inl (by decide)⟩
    have hp' : p = ("d", [Result.ofLine c8line]) := by simpa using hpd
    subst hp'
    simp
  · exact ⟨("d", [Result.ofLine c8line]), by simp,
      Result.ofLine c8line, by simp, by decide, Or.inl (by decide)⟩

/-! ### Claim C9 -/

/-- C9.  The per-dataset winner bookkeeping succeeds only when every
dataset group keeps at least one record after allow-list filtering: if
some dataset's records are all filtered out (and every participating
record elsewhere is well formed), the sweep does not skip that dataset
but aborts at the first bandwidth point with a lookup of the sentinel
key, `KeyError: 'dummy'`, producing no points. -/
theorem claim9_dummy_key_error (L Lall : List String)
    (d2r : List (String × List Result)) (filename : String)
    (bw : ℕ) (bws' : List ℕ)
    (hparse : ∀ p ∈ d2r, ∀ r ∈ p.2, r.algorithm ∈ Lall →
      (∃ c, pyFloat r.computeTime = .ok c) ∧ (∃ o, pyFloat r.outputBytes = .ok o) ∧
        r.algorithm ∈ L)
    (hdummy : ¬ "dummy" ∈ L)
    (hbad : ∃ p ∈ d2r, ∀ r ∈ p.2, ¬ r.algorithm ∈ Lall) :
    (runBandwidthCalculations d2r L Lall filename (bw :: bws')).err =
      some "KeyError: 'dummy'" ∧
    (runBandwidthCalculations d2r L Lall filename (bw :: bws')).points = [] ∧
    (runBandwidthCalculations d2r L Lall filename (bw :: bws')).warned = false := by
  have hne : d2r.length ≠ 0 := by
    obtain ⟨p, hp, _⟩ := hbad
    intro hc
    rw [List.length_eq_zero] at hc
    subst hc
    exact absurd hp (List.not_mem_nil p)
  have hpp : processPoint L Lall d2r bw = .error ("KeyError: '" ++ "dummy" ++ "'") :=
    foldlM_pointStep_dummy L Lall bw hdummy d2r
      (L.map (fun a => (a, ([] : List String)))) (L.map (fun a => (a, (0 : ℚ))))
      (map_fst_map_pair L _) (map_fst_map_pair L _) hparse hbad
  refine ⟨?_, ?_, ?_⟩
  · unfold runBandwidthCalculations
    rw [if_neg hne, sweepGo_cons_err hpp]
    show some ("KeyError: '" ++ "dummy" ++ "'") = some "KeyError: 'dummy'"
    decide
  · unfold runBandwidthCalculations
    rw [if_neg hne, sweepGo_cons_err hpp]
  · unfold runBandwidthCalculations
    rw [if_neg hne]

theorem claim9_dummy_key_error_witness :
    ((∀ r ∈ [c7rx], ¬ r.algorithm ∈ ["a"]) ∧ ¬ "dummy" ∈ ["a"]) ∧
    ((runBandwidthCalculations [("d", [c7rx])] ["a"] ["a"] "all" (1 :: [])).err =
        some "KeyError: 'dummy'" ∧
      (runBandwidthCalculations [("d", [c7rx])] ["a"] ["a"] "all" (1 :: [])).points = [] ∧
      (runBandwidthCalculations [("d", [c7rx])] ["a"] ["a"] "all" (1 :: [])).warned
        = false) := by
  refine ⟨⟨by decide, by decide⟩, ?_⟩
  refine claim9_dummy_key_error ["a"] ["a"] [("d", [c7rx])] "all" 1 [] ?_ (by decide) ?_
  · intro p hpd r hr hm
    have hp' : p = ("d", [c7rx]) := by simpa using hpd
    subst hp'
    have hr' : r = c7rx := by simpa using hr
    subst hr'
    exact absurd hm (by decide)
  · exact ⟨("d", [c7rx]), by simp, by decide⟩

/-! ### Claim C10 support: the byte-lexicographic sort -/

lemma strLeL_total : ∀ as bs : List Char, strLeL as bs = true ∨ strLeL bs as = true := by
  intro as
  induction as with
  | nil => intro bs; exact Or.inl rfl
  | cons a as ih =>
    intro bs
    cases bs with
    | nil => exact Or.inr rfl
    | cons b bs =>
      rcases lt_trichotomy a b with h | h | h
      · left
        show (if a < b then true else if a = b then strLeL as bs else false) = true
        rw [if_pos h]
      · subst h
        rcases ih bs with h' | h'
        · left
          show (if a < a then true else if a = a then strLeL as bs else false) = true
          rw [if_neg (lt_irrefl a), if_pos rfl]
          exact h'
        · right
          show (if a < a then true else if a = a then strLeL bs as else false) = true
          rw [if_neg (lt_irrefl a), if_pos rfl]
          exact h'
      · right
        show (if b < a then true else if b = a then strLeL bs as else false) = true
        rw [if_pos h]

lemma strLeL_trans : ∀ as bs cs : List Char,
    strLeL as bs = true → strLeL bs cs = true → strLeL as cs = true := by
  intro as
  induction as with
  | nil => intro bs cs _ _; rfl
  | cons a as ih =>
    intro bs cs h1 h2
    cases bs with
    | nil => exact absurd h1 (by simp [strLeL])
    | cons b bs =>
      cases cs with
      | nil => exact absurd h2 (by simp [strLeL])
      | cons c cs =>
        have h1' : (if a < b then true else if a = b then strLeL as bs else false) = true := h1
        have h2' : (if b < c then true else if b = c then strLeL bs cs else false) = true := h2
        show (if a < c then true else if a = c then strLeL as cs else false) = true
        by_cases hab : a < b
        · by_cases hbc : b < c
          · rw [if_pos (lt_trans hab hbc)]
          · rw [if_neg hbc] at h2'
            by_cases hbc' : b = c
            · rw [if_pos (hbc' ▸ hab)]
            · rw [if_neg hbc'] at h2'
              exact Bool.noConfusion h2'
        · rw [if_neg hab] at h1'
          by_cases hab' : a = b
          · rw [if_pos hab'] at h1'
            subst hab'
            by_cases hac : a < c
            · rw [if_pos hac]
            · rw [if_neg hac]
              rw [if_neg hac] at h2'
              by_cases hac' : a = c
              · rw [if_pos hac'] at h2' ⊢
                exact ih bs cs h1' h2'
              · rw [if_neg hac'] at h2'
                exact Bool.noConfusion h2'
          · rw [if_neg hab'] at h1'
            exact Bool.noConfusion h1'

lemma strLeL_antisymm : ∀ as bs : List Char,
    strLeL as bs = true → strLeL bs as = true → as = bs := by
  intro as
  induction as with
  | nil =>
    intro bs _ h2
    cases bs with
    | nil => rfl
    | cons b bs => exact absurd h2 (by simp [strLeL])
  | cons a as ih =>
    intro bs h1 h2
    cases bs with
    | nil => exact absurd h1 (by simp [strLeL])
    | cons b bs =>
      have h1' : (if a < b then true else if a = b then strLeL as bs else false) = true := h1
      have h2' : (if b < a then true else if b = a then strLeL bs as else false) = true := h2
      by_cases hab : a < b
      · rw [if_neg (lt_asymm hab), if_neg (ne_of_gt hab)] at h2'
        exact Bool.noConfusion h2'
      · rw [if_neg hab] at h1'
        by_cases hab' : a = b
        · subst hab'
          rw [if_pos rfl] at h1'
          rw [if_neg (lt_irrefl a), if_pos rfl] at h2'
          rw [ih bs h1' h2']
        · rw [if_neg hab'] at h1'
          exact Bool.noConfusion h1'

/-- The propositional order underlying `pySorted`. -/
def strLeP (a b : String) : Prop := strLe a b = true

instance : DecidableRel strLeP := fun a b => by
  unfold strLeP
  infer_instance

instance : IsAntisymm String strLeP where
  antisymm a b h1 h2 := by
    have := strLeL_antisymm a.toList b.toList h1 h2
    have hd : a.data = b.data := this
    cases a
    cases b
    exact congrArg String.mk hd

lemma pyInsert_perm (x : String) : ∀ l : List String, (pyInsert x l).Perm (x :: l) := by
  intro l
  induction l with
  | nil => exact List.Perm.refl _
  | cons y ys ih =>
    show (if strLe x y then x :: y :: ys else y :: pyInsert x ys).Perm (x :: y :: ys)
    by_cases h : strLe x y
    · rw [if_pos h]
    · rw [if_neg h]
      exact List.Perm.trans (List.Perm.cons y ih) (List.Perm.swap x y ys)

lemma pySorted_perm : ∀ l : List String, (pySorted l).Perm l := by
  intro l
  induction l with
  | nil => exact List.Perm.refl _
  | cons x xs ih =>
    show (pyInsert x (pySorted xs)).Perm (x :: xs)
    exact List.Perm.trans (pyInsert_perm x _) (List.Perm.cons x ih)

lemma mem_pySorted {a : String} {l : List String} : a ∈ pySorted l ↔ a ∈ l :=
  (pySorted_perm l).mem_iff

lemma pyInsert_sorted (x : String) : ∀ l : List String,
    l.Pairwise strLeP → (pyInsert x l).Pairwise strLeP := by
  intro l
  induction l with
  | nil => intro _; exact List.pairwise_singleton _ x
  | cons y ys ih =>
    intro hp
    obtain ⟨hy, hys⟩ := List.pairwise_cons.mp hp
    show (if strLe x y then x :: y :: ys else y :: pyInsert x ys).Pairwise strLeP
    by_cases h : strLe x y
    · rw [if_pos h]
      refine List.pairwise_cons.mpr ⟨?_, hp⟩
      intro z hz
      rcases List.mem_cons.mp hz with rfl | hz'
      · exact h
      · exact strLeL_trans x.toList y.toList z.toList h (hy z hz')
    · rw [if_neg h]
      refine List.pairwise_cons.mpr ⟨?_, ih hys⟩
      intro z hz
      have hz' : z ∈ x :: ys := (pyInsert_perm x ys).mem_iff.mp hz
      rcases List.mem_cons.mp hz' with rfl | hz''
      · rcases strLeL_total y.toList z.toList with h' | h'
        · exact h'
        · exact absurd h' h
      · exact hy z hz''

lemma pySorted_sorted : ∀ l : List String, (pySorted l).Pairwise strLeP := by
  intro l
  induction l with
  | nil => exact List.Pairwise.nil
  | cons x xs ih => exact pyInsert_sorted x (pySorted xs) ih

/-- Sorted lists that are permutations of one another coincide. -/
lemma pySorted_eq_of_perm {l₁ l₂ : List String} (h : l₁.Perm l₂) :
    pySorted l₁ = pySorted l₂ := by
  refine List.eq_of_perm_of_sorted ?_ (pySorted_sorted l₁) (pySorted_sorted l₂)
  exact List.Perm.trans (pySorted_perm l₁) (List.Perm.trans h (pySorted_perm l₂).symm)

/-! ### Claim C10 support: ingestion invariants and the erase chain -/

lemma ingestOne_ok_fields {st₀ st₁ : IngestState} {r : Result}
    (h : ingestOne st₀ r = .ok st₁) :
    st₁.logResults = st₀.logResults ∧ st₁.frequencies = st₀.frequencies ∧
      (st₁.algorithms = st₀.algorithms ∨
        (st₁.algorithms = st₀.algorithms ++ [r.algorithm] ∧ ¬ r.algorithm ∈ st₀.algorithms)) := by
  unfold ingestOne at h
  cases hm : distFreqMatch r.dataset with
  | some q =>
    rw [hm] at h
    exact Except.noConfusion h
  | none =>
    rw [hm] at h
    have hst := (Except.ok.injEq _ _).mp h
    subst hst
    refine ⟨rfl, rfl, ?_⟩
    by_cases hmem : r.algorithm ∈ st₀.algorithms
    · left
      simp [hmem]
    · right
      exact ⟨by simp [hmem], hmem⟩

lemma foldlM_ingestOne_inv :
    ∀ (rs : List Result) (st₀ st : IngestState),
      rs.foldlM ingestOne st₀ = .ok st →
      st.logResults = st₀.logResults ∧ (st₀.algorithms.Nodup → st.algorithms.Nodup) := by
  intro rs
  induction rs with
  | nil =>
    intro st₀ st h
    have := (Except.ok.injEq _ _).mp h
    subst this
    exact ⟨rfl, fun h => h⟩
  | cons r rs ih =>
    intro st₀ st h
    rw [List.foldlM_cons] at h
    cases hio : ingestOne st₀ r with
    | error e =>
      rw [hio, except_bind_err] at h
      exact Except.noConfusion h
    | ok st₁ =>
      rw [hio, except_bind_ok] at h
      obtain ⟨hlog, hfreq, halg⟩ := ingestOne_ok_fields hio
      obtain ⟨hlog', hnd'⟩ := ih st₁ st h
      refine ⟨by rw [hlog', hlog], ?_⟩
      intro hnd₀
      refine hnd' ?_
      rcases halg with h' | ⟨h', hmem⟩
      · rw [h']; exact hnd₀
      · rw [h']
        rw [List.nodup_append]
        exact ⟨hnd₀, List.nodup_singleton _, by
          intro a ha hb
          have : a = r.algorithm := by simpa using hb
          subst this
          exact hmem ha⟩

lemma mainIngest_logResults_nil {allResults : List Result} {st : IngestState}
    (h : mainIngest allResults = .ok st) : st.logResults = [] :=
  (foldlM_ingestOne_inv allResults ⟨[], [], [], []⟩ st h).1

lemma mainIngest_algorithms_nodup {allResults : List Result} {st : IngestState}
    (h : mainIngest allResults = .ok st) : st.algorithms.Nodup :=
  (foldlM_ingestOne_inv allResults ⟨[], [], [], []⟩ st h).2 List.nodup_nil

lemma foldlM_pyListRemove_err :
    ∀ (ids l : List String), (∃ x ∈ ids, ¬ x ∈ l) →
      ids.foldlM pyListRemove l = .error "ValueError: list.remove(x): x not in list" := by
  intro ids
  induction ids with
  | nil =>
    intro l h
    obtain ⟨x, hx, _⟩ := h
    exact absurd hx (List.not_mem_nil x)
  | cons y ys ih =>
    intro l h
    rw [List.foldlM_cons]
    by_cases hy : y ∈ l
    · rw [show pyListRemove l y = .ok (l.erase y) by unfold pyListRemove; rw [if_pos hy],
        except_bind_ok]
      refine ih (l.erase y) ?_
      obtain ⟨x, hx, hxl⟩ := h
      rcases List.mem_cons.mp hx with rfl | hx'
      · exact absurd hy hxl
      · exact ⟨x, hx', fun hc => hxl (List.mem_of_mem_erase hc)⟩
    · rw [show pyListRemove l y = .error "ValueError: list.remove(x): x not in list" by
        unfold pyListRemove; rw [if_neg hy], except_bind_err]

lemma foldlM_pyListRemove_ok :
    ∀ (ids l : List String), (∀ x ∈ ids, x ∈ l) → l.Nodup → ids.Nodup →
      ids.foldlM pyListRemove l = .ok (ids.foldl List.erase l) := by
  intro ids
  induction ids with
  | nil => intro l _ _ _; rfl
  | cons y ys ih =>
    intro l hmem hnd hidnd
    rw [List.foldlM_cons]
    have hy : y ∈ l := hmem y (by simp)
    rw [show pyListRemove l y = .ok (l.erase y) by unfold pyListRemove; rw [if_pos hy],
      except_bind_ok]
    have hynotys : ¬ y ∈ ys := (List.nodup_cons.mp hidnd).1
    refine ih (l.erase y) ?_ (hnd.erase y) (List.nodup_cons.mp hidnd).2
    intro x hx
    refine (List.mem_erase_of_ne ?_).mpr (hmem x (by simp [hx]))
    intro hc
    subst hc
    exact hynotys hx

lemma foldl_erase_eq_filter :
    ∀ (ids l : List String), l.Nodup →
      ids.foldl List.erase l = l.filter (fun a => ¬ a ∈ ids) := by
  intro ids
  induction ids with
  | nil =>
    intro l _
    show l = _
    induction l with
    | nil => rfl
    | cons x xs ihl => simp [List.filter_cons, ihl]
  | cons y ys ih =>
    intro l hnd
    show ys.foldl List.erase (l.erase y) = _
    rw [ih (l.erase y) (hnd.erase y), hnd.erase_eq_filter y, List.filter_filter]
    refine List.filter_congr (fun a _ => ?_)
    by_cases hay : a = y
    · subst hay
      simp
    · by_cases hays : a ∈ ys
      · simp [hay, hays]
      · simp [hay, hays]

/-! ### Claim C10 -/

/-- C10.  Given a successful ingestion (so the exclusion step is
reached), the six `algorithms.remove(...)` calls require each excluded
id to be present in the observed algorithm set: if any is absent the
analysis aborts with `ValueError` before any report run and with no
files produced, and when all are present the resulting
`listOfAllAlgorithms` is the lexicographically sorted observed set minus
exactly those six ids. -/
theorem claim10_exclusion (allResults : List Result) (bws : List ℕ)
    (st : IngestState) (hin : mainIngest allResults = .ok st) :
    ((∃ a ∈ excludedSix, ¬ a ∈ st.algorithms) →
      (mainAnalysis allResults bws).err =
        some "ValueError: list.remove(x): x not in list" ∧
      (mainAnalysis allResults bws).distFiles = [] ∧
      (mainAnalysis allResults bws).sweepRuns = [] ∧
      (mainAnalysis allResults bws).allowList = none) ∧
    ((∀ a ∈ excludedSix, a ∈ st.algorithms) →
      (mainAnalysis allResults bws).allowList =
        some (pySorted (st.algorithms.filter (fun a => ¬ a ∈ excludedSix))) ∧
      (mainAnalysis allResults bws).distFiles = []) := by
  have hlog := mainIngest_logResults_nil hin
  have hnd := mainIngest_algorithms_nodup hin
  have hndS : (pySorted st.algorithms).Nodup := (pySorted_perm st.algorithms).nodup_iff.mpr hnd
  constructor
  · intro habs
    obtain ⟨a, ha, hamem⟩ := habs
    have herr : applyExclusions (pySorted st.algorithms) =
        .error "ValueError: list.remove(x): x not in list" :=
      foldlM_pyListRemove_err excludedSix (pySorted st.algorithms)
        ⟨a, ha, fun hc => hamem (mem_pySorted.mp hc)⟩
    unfold mainAnalysis
    simp only [hin, herr]
    simp [hlog]
  · intro hall
    have hok : applyExclusions (pySorted st.algorithms) =
        .ok (excludedSix.foldl List.erase (pySorted st.algorithms)) :=
      foldlM_pyListRemove_ok excludedSix (pySorted st.algorithms)
        (fun x hx => mem_pySorted.mpr (hall x hx)) hndS (by decide)
    have hfil : excludedSix.foldl List.erase (pySorted st.algorithms) =
        (pySorted st.algorithms).filter (fun a => ¬ a ∈ excludedSix) :=
      foldl_erase_eq_filter excludedSix (pySorted st.algorithms) hndS
    have hperm : ((pySorted st.algorithms).filter (fun a => ¬ a ∈ excludedSix)).Perm
        (st.algorithms.filter (fun a => ¬ a ∈ excludedSix)) :=
      (pySorted_perm st.algorithms).filter _
    unfold mainAnalysis
    simp only [hin, hok]
    refine ⟨?_, by simp [hlog]⟩
    show some (pySorted (excludedSix.foldl List.erase (pySorted st.algorithms))) = _
    rw [hfil, pySorted_eq_of_perm hperm]

/-- Record constructor for the exclusion-step inputs. -/
def c10rec (a d : String) : Result :=
  ⟨a, d, "10", "100", "0", "2.0", "1.0", "0.5", "1.0", "", "", "", "", ""⟩

/-- Input whose observed algorithm set lacks the six excluded ids. -/
def c10absent : List Result := [c10rec "nlog" "Rand1"]

/-- Input whose observed algorithm set contains all six excluded ids. -/
def c10present : List Result :=
  [c10rec "nlog" "Rand1", c10rec "gzip,1+s" "Rand1", c10rec "gzip,6+s" "Rand1",
   c10rec "gzip,9+s" "Rand1", c10rec "s+gzip,1" "Rand1", c10rec "s+gzip,6" "Rand1",
   c10rec "s+gzip,9" "Rand1"]

theorem claim10_exclusion_witness :
    (mainIngest c10absent =
        .ok ⟨[], ["nlog"], [], [("Rand1", [c10rec "nlog" "Rand1"])]⟩ ∧
      "gzip,1+s" ∈ excludedSix ∧ ¬ "gzip,1+s" ∈ (["nlog"] : List String)) ∧
    ((mainAnalysis c10absent [1]).err =
        some "ValueError: list.remove(x): x not in list" ∧
      (mainAnalysis c10absent [1]).distFiles = [] ∧
      (mainAnalysis c10absent [1]).sweepRuns = [] ∧
      (mainAnalysis c10absent [1]).allowList = none) ∧
    (mainAnalysis c10present [1]).allowList =
      some (pySorted
        ((["nlog", "gzip,1+s", "gzip,6+s", "gzip,9+s", "s+gzip,1", "s+gzip,6",
           "s+gzip,9"] : List String).filter (fun a => ¬ a ∈ excludedSix))) := by
  refine ⟨⟨by decide, by decide, by decide⟩, ?_, ?_⟩
  · exact (claim10_exclusion c10absent [1]
      ⟨[], ["nlog"], [], [("Rand1", [c10rec "nlog" "Rand1"])]⟩ (by decide)).1
      ⟨"gzip,1+s", by decide, by decide⟩
  · exact ((claim10_exclusion c10present [1]
      ⟨[], ["nlog", "gzip,1+s", "gzip,6+s", "gzip,9+s", "s+gzip,1", "s+gzip,6", "s+gzip,9"],
       [], [("Rand1", c10present)]⟩ (by decide)).2 (by decide)).1

end Pivot
